import Mathlib

/-!
Verification of the subscription-manager core against its sources.

The repository is a TypeScript Cloudflare-Workers application.  This file
shallowly embeds the components the claims are about:

* the Gregorian date arithmetic of the host `Date` library, used by
  `calculateNextExpiryDate` in `src/services/subscription.ts` (dates are
  modelled as normalized `(year, month, day)` triples with `year ≥ 0`;
  comparisons between `Date` values at midnight coincide with comparisons of
  day numbers);
* the lunar calendar (`src/utils/lunar.ts`), whose implementation file is not
  part of the sources; it is modelled from the spec, parametrized by the
  per-year encoding table;
* `calculateNextExpiryDate` and `checkExpiringSubscriptions` from
  `src/services/subscription.ts` (unbounded `while` loops are modelled with an
  explicit fuel parameter: `none` means the loop is still running after `fuel`
  iterations);
* `checkRateLimit` from `src/middleware/rateLimit.ts`;
* the notification dispatcher and recipient distributor
  (`src/services/notification.ts`, also absent from the sources and modelled
  from the spec).
-/

set_option maxRecDepth 400000

namespace SubMgr

/-! ## Gregorian day arithmetic (host `Date` library semantics) -/

/-- Gregorian leap-year test. -/
def isLeapYear (y : Nat) : Bool :=
  (y % 4 == 0 && y % 100 != 0) || y % 400 == 0

/-- Length of Gregorian month `m` (1-based) in year `y`. -/
def daysInMonth (y m : Nat) : Nat :=
  if m = 2 then (if isLeapYear y then 29 else 28)
  else if m = 4 ∨ m = 6 ∨ m = 9 ∨ m = 11 then 30
  else 31

/-- Length of Gregorian year `y`. -/
def daysInYear (y : Nat) : Nat := if isLeapYear y then 366 else 365

/-- A solar (Gregorian) calendar date, month and day 1-based.
The model covers years `≥ 0`; all dates the program handles lie in or after
1900. -/
structure SolarDate where
  year : Nat
  month : Nat
  day : Nat
deriving Repr, DecidableEq

/-- Days contributed by years `0, …, y-1` (closed form: 365 per year plus
one per leap year among them; year 0 is a leap year). -/
def daysBeforeYear (y : Nat) : Nat :=
  365 * y + (y + 3) / 4 - (y + 99) / 100 + (y + 399) / 400

/-- Days contributed by months `1, …, k` of year `y`. -/
def monthPrefix (y : Nat) : Nat → Nat
  | 0 => 0
  | k + 1 => monthPrefix y k + daysInMonth y (k + 1)

/-- Day number of a date (days since 0000-01-01). -/
def toDays (d : SolarDate) : Nat :=
  daysBeforeYear d.year + monthPrefix d.year (d.month - 1) + (d.day - 1)

/-- A structurally valid Gregorian date. -/
def ValidDate (d : SolarDate) : Prop :=
  1 ≤ d.month ∧ d.month ≤ 12 ∧ 1 ≤ d.day ∧ d.day ≤ daysInMonth d.year d.month

instance (d : SolarDate) : Decidable (ValidDate d) := by
  unfold ValidDate; infer_instance

/-- Walk years from `y`, subtracting year lengths from `n` until the
remainder falls inside a year.  Structural recursion on a fuel bound (each
step consumes at least 365 days, so `n + 1` fuel always suffices). -/
def yearOfDaysAux : Nat → Nat → Nat → Nat × Nat
  | 0, y, n => (y, n)
  | fuel + 1, y, n =>
    if n < daysInYear y then (y, n) else yearOfDaysAux fuel (y + 1) (n - daysInYear y)

/-- Resolve a day count into (year, remaining days), walking years from `y`. -/
def yearOfDays (y n : Nat) : Nat × Nat := yearOfDaysAux (n + 1) y n

/-- Walk months from `m`, subtracting month lengths from `n`; stops at
month 12.  Twelve units of fuel always suffice. -/
def monthOfDaysAux (y : Nat) : Nat → Nat → Nat → Nat × Nat
  | 0, m, n => (m, n)
  | fuel + 1, m, n =>
    if 12 ≤ m then (m, n)
    else if n < daysInMonth y m then (m, n)
    else monthOfDaysAux y fuel (m + 1) (n - daysInMonth y m)

/-- Resolve remaining days within year `y` into (month, remaining days),
walking months from `m`. -/
def monthOfDays (y m n : Nat) : Nat × Nat := monthOfDaysAux y 12 m n

/-- Date of a day number: inverse of `toDays`. -/
def fromDays (n : Nat) : SolarDate :=
  let p := yearOfDays 0 n
  let q := monthOfDays p.1 1 p.2
  ⟨p.1, q.1, q.2 + 1⟩

/-- Sum of the lengths of the `k` Gregorian years `y, …, y+k-1`. -/
def sumYearsFrom (y : Nat) : Nat → Nat
  | 0 => 0
  | k + 1 => daysInYear y + sumYearsFrom (y + 1) k

/-- Sum of the lengths of the `k` months `m, …, m+k-1` of year `y`. -/
def sumMonthsFrom (y m : Nat) : Nat → Nat
  | 0 => 0
  | k + 1 => daysInMonth y m + sumMonthsFrom y (m + 1) k

/-! ### JS `Date` field-setter semantics

`setDate`, `setMonth` and `setFullYear` set a field and renormalize the
(possibly overflowing) triple, exactly as the host `Date` library does.
Inputs before year 0 are outside the modelled range (the program only
handles dates from 1900 on). -/

/-- Day number of the first day of month index `i` (`i = 12·year + month−1`). -/
def monthIdxDays (i : Nat) : Nat :=
  daysBeforeYear (i / 12) + monthPrefix (i / 12) (i % 12)

/-- `d.setDate(d.getDate() + v)`. -/
def addDays (d : SolarDate) (v : Int) : SolarDate :=
  fromDays ((toDays d + v : Int)).toNat

/-- `d.setMonth(d.getMonth() + v)`: move to the month `v` after `d`'s month,
keep the day-of-month value, renormalize overflow. -/
def addMonths (d : SolarDate) (v : Int) : SolarDate :=
  fromDays (monthIdxDays ((d.year * 12 + ((d.month : Int) - 1) + v)).toNat + (d.day - 1))

/-- `d.setFullYear(d.getFullYear() + v)`: keep month and day-of-month,
renormalize overflow (Feb 29 → Mar 1 in a non-leap year). -/
def addYears (d : SolarDate) (v : Int) : SolarDate :=
  fromDays (daysBeforeYear ((d.year + v : Int)).toNat
    + monthPrefix ((d.year + v : Int)).toNat (d.month - 1) + (d.day - 1))

/-- The recurrence period unit (`'day' | 'month' | 'year'`). -/
inductive PeriodUnit where
  | day
  | month
  | year
deriving Repr, DecidableEq

/-- One solar-mode advance of the `while` loop body of
`calculateNextExpiryDate`. -/
def solarStep (pv : Int) (pu : PeriodUnit) (d : SolarDate) : SolarDate :=
  match pu with
  | .day => addDays d pv
  | .month => addMonths d pv
  | .year => addYears d pv

/-! ## Lunar calendar

Modelled from the spec: the implementation file `src/utils/lunar.ts` is not
among the sources (only its test file is), so `solar2lunar`, `lunar2solar`,
`addLunarPeriod` and the table-derived helpers are modelled from spec §4.1,
§3 and the behaviour pinned by `tests/utils` (epoch 1900-01-31, coverage
years 1900–2100, leap month inserted after its ordinary month, day-of-month
overflow is a conversion failure).  The encoding table's constant values are
not in the sources either; the model is parametrized by them. -/

/-- A lunar calendar date; `isLeap` marks the intercalary month. -/
structure LunarDate where
  year : Nat
  month : Nat
  day : Nat
  isLeap : Bool
deriving Repr, DecidableEq

/-- Modelled from the spec: the per-year lunar encoding table — which month
is leap (`0` = none), the 29/30-day pattern of the twelve ordinary months,
and the length of the leap month. -/
structure LunarTable where
  leapMonth : Nat → Nat
  monthBig : Nat → Nat → Bool
  leapBig : Nat → Bool

/-- Length (29/30) of ordinary month `m` of lunar year `y`. -/
def LunarTable.monthDays (T : LunarTable) (y m : Nat) : Nat :=
  if T.monthBig y m then 30 else 29

/-- Length of the leap month of lunar year `y` (`0` when there is none). -/
def LunarTable.leapDays (T : LunarTable) (y : Nat) : Nat :=
  if T.leapMonth y = 0 then 0 else if T.leapBig y then 30 else 29

/-! ### Labelled segment lists

The year walk and the month walk of the conversion algorithms are both
"subtract segment lengths until the remainder falls inside a segment". -/

/-- Sum of segment lengths. -/
def segSum {α : Type} (l : List (α × Nat)) : Nat :=
  (l.map Prod.snd).sum

/-- Locate day `n` (counted from the start of the first segment):
returns the segment label and the remainder inside it. -/
def segWalk {α : Type} : List (α × Nat) → Nat → Option (α × Nat)
  | [], _ => none
  | (a, len) :: rest, n => if n < len then some (a, n) else segWalk rest (n - len)

/-- Days before the first segment labelled `a` (`none` if no such segment). -/
def segBefore {α : Type} [DecidableEq α] : List (α × Nat) → α → Option Nat
  | [], _ => none
  | (b, len) :: rest, a =>
    if a = b then some 0 else (segBefore rest a).map (fun p => len + p)

/-- The months of lunar year `y` in calendar order, as `(month, isLeap)`;
the leap month (if any) is inserted after its ordinary month. -/
def lunarMonths (T : LunarTable) (y : Nat) : List (Nat × Bool) :=
  (List.range 12).flatMap (fun i =>
    if T.leapMonth y = i + 1 then [(i + 1, false), (i + 1, true)]
    else [(i + 1, false)])

/-- Length of month `(m, isLeap)` of lunar year `y`. -/
def lunarMonthLen (T : LunarTable) (y : Nat) (p : Nat × Bool) : Nat :=
  if p.2 then T.leapDays y else T.monthDays y p.1

/-- The month segments of lunar year `y`. -/
def monthSegs (T : LunarTable) (y : Nat) : List ((Nat × Bool) × Nat) :=
  (lunarMonths T y).map (fun p => (p, lunarMonthLen T y p))

/-- Total day count of lunar year `y` (12 ordinary months plus the leap
month if present). -/
def lunarYearDays (T : LunarTable) (y : Nat) : Nat := segSum (monthSegs T y)

/-- The year segments of the covered lunar years 1900–2100. -/
def coverageSegs (T : LunarTable) : List (Nat × Nat) :=
  (List.range 201).map (fun k => (1900 + k, lunarYearDays T (1900 + k)))

/-- Day number of the conversion epoch 1900-01-31 (lunar 1900-01-01). -/
def lunarEpochDays : Nat := toDays ⟨1900, 1, 31⟩

/-- Modelled from the spec: `lunarCalendar.solar2lunar` — `none` outside
years 1900–2100, for malformed dates, and for dates before the epoch;
otherwise walk the years and then the months of the table. -/
def solar2lunar (T : LunarTable) (y m d : Nat) : Option LunarDate :=
  if ¬ (1900 ≤ y ∧ y ≤ 2100 ∧ ValidDate ⟨y, m, d⟩) then none
  else if toDays ⟨y, m, d⟩ < lunarEpochDays then none
  else
    match segWalk (coverageSegs T) (toDays ⟨y, m, d⟩ - lunarEpochDays) with
    | none => none
    | some (ly, r) =>
      match segWalk (monthSegs T ly) r with
      | none => none
      | some (lm, r2) => some ⟨ly, lm.1, r2 + 1, lm.2⟩

/-- Day offset from the epoch of a lunar date: days of the covered years
before it, plus days of the year's earlier months, plus `day − 1`.
`none` when the `(year, month, isLeap, day)` combination does not exist in
the table. -/
def lunarOffset (T : LunarTable) (l : LunarDate) : Option Nat :=
  match segBefore (coverageSegs T) l.year,
        segBefore (monthSegs T l.year) (l.month, l.isLeap) with
  | some yp, some mp =>
    if 1 ≤ l.day ∧ l.day ≤ lunarMonthLen T l.year (l.month, l.isLeap)
    then some (yp + mp + (l.day - 1)) else none
  | _, _ => none

/-- Modelled from the spec: `lunar2solar` — epoch plus the day offset,
`none` when the lunar date does not exist in the table. -/
def lunar2solar (T : LunarTable) (l : LunarDate) : Option SolarDate :=
  (lunarOffset T l).map (fun o => fromDays (lunarEpochDays + o))

/-- Index of the first occurrence of an element in a list (length when
absent). -/
def idxOfAux {α : Type} [DecidableEq α] (a : α) : List α → Nat
  | [] => 0
  | b :: rest => if a = b then 0 else idxOfAux a rest + 1

/-- Index of `(month, isLeap)` in the month sequence of year `y`
(meaningful for combinations that exist in the table). -/
def lunarMonthIdx (T : LunarTable) (y m : Nat) (leap : Bool) : Nat :=
  idxOfAux (m, leap) (lunarMonths T y)

/-- Successor of a month position `(year, index into the month sequence)`,
wrapping into the next lunar year. -/
def nextMonthPos (T : LunarTable) (p : Nat × Nat) : Nat × Nat :=
  if p.2 + 1 < (lunarMonths T p.1).length then (p.1, p.2 + 1) else (p.1 + 1, 0)

/-- The lunar date at month position `p` with day-of-month `d`. -/
def posDate (T : LunarTable) (p : Nat × Nat) (d : Nat) : LunarDate :=
  match (lunarMonths T p.1).get? p.2 with
  | some q => ⟨p.1, q.1, d, q.2⟩
  | none => ⟨p.1, 1, d, false⟩

/-- Length of the month at position `p`. -/
def posLen (T : LunarTable) (p : Nat × Nat) : Nat :=
  match (lunarMonths T p.1).get? p.2 with
  | some q => lunarMonthLen T p.1 q
  | none => 29

/-- Lunar day-advance with month/year rollover, structural on a fuel bound
(every month is at least 29 days, so `d` units of fuel always suffice). -/
def lunarDayWalkAux (T : LunarTable) : Nat → Nat × Nat → Nat → LunarDate
  | 0, p, d => posDate T p d
  | fuel + 1, p, d =>
    if d ≤ posLen T p then posDate T p d
    else lunarDayWalkAux T fuel (nextMonthPos T p) (d - posLen T p)

/-- Lunar day-advance with month/year rollover. -/
def lunarDayWalk (T : LunarTable) (p : Nat × Nat) (d : Nat) : LunarDate :=
  lunarDayWalkAux T d p d

/-- Modelled from the spec: `addLunarPeriod` — adding years keeps month/day
and clears the leap flag; adding months advances through the month sequence
(re-resolving the leap-month position from the table), keeping the day;
adding days increments the lunar day with month/year rollover.  The spec
restricts period values to positive integers. -/
def addLunarPeriod (T : LunarTable) (l : LunarDate) (v : Nat) (u : PeriodUnit) : LunarDate :=
  match u with
  | .year => ⟨l.year + v, l.month, l.day, false⟩
  | .month =>
    posDate T ((nextMonthPos T)^[v] (l.year, lunarMonthIdx T l.year l.month l.isLeap)) l.day
  | .day => lunarDayWalk T (l.year, lunarMonthIdx T l.year l.month l.isLeap) (l.day + v)

/-! ## `calculateNextExpiryDate` (`src/services/subscription.ts`)

The source's unbounded `while` loops are modelled with a fuel parameter:
`none` means the loop has not finished after `fuel` iterations, so a result
that holds for every fuel characterizes the (non-)terminating behaviour. -/

/-- The solar-mode `while` loop of `calculateNextExpiryDate`. -/
def solarLoop (target : SolarDate) (pv : Int) (pu : PeriodUnit) :
    Nat → SolarDate → Option SolarDate
  | fuel, cur =>
    if toDays cur < toDays target then
      match fuel with
      | 0 => none
      | f + 1 => solarLoop target pv pu f (solarStep pv pu cur)
    else some cur

/-- The lunar-mode `while` loop of `calculateNextExpiryDate`: advance the
lunar date by one period, convert back to solar; a failed conversion breaks
the loop and returns the last successfully converted date. -/
def lunarLoop (T : LunarTable) (target : SolarDate) (pv : Int) (pu : PeriodUnit) :
    Nat → SolarDate → LunarDate → Option SolarDate
  | fuel, cur, ld =>
    if toDays cur < toDays target then
      match fuel with
      | 0 => none
      | f + 1 =>
        match lunar2solar T (addLunarPeriod T ld pv.toNat pu) with
        | none => some cur
        | some s => lunarLoop T target pv pu f s (addLunarPeriod T ld pv.toNat pu)
    else some cur

/-- `calculateNextExpiryDate(currentExpiry, periodValue, periodUnit, useLunar,
targetDate)`: if the expiry is not before the target, return it unchanged;
otherwise advance it period by period (in lunar units when `useLunar`).
A failed initial solar→lunar conversion returns the original date. -/
def calculateNextExpiryDate (T : LunarTable) (fuel : Nat) (currentExpiry : SolarDate)
    (periodValue : Int) (periodUnit : PeriodUnit) (useLunar : Bool)
    (targetDate : SolarDate) : Option SolarDate :=
  if toDays targetDate ≤ toDays currentExpiry then some currentExpiry
  else if useLunar then
    match solar2lunar T currentExpiry.year currentExpiry.month currentExpiry.day with
    | none => some currentExpiry
    | some ld => lunarLoop T targetDate periodValue periodUnit fuel currentExpiry ld
  else solarLoop targetDate periodValue periodUnit fuel currentExpiry

/-! ## Due-date scanner (`checkExpiringSubscriptions`) -/

/-- The fields of a stored subscription the scanner and the distributor
read or write (`updatedAt` is subsumed by whether a record is written).
`reminderDays = none` models an absent (`undefined`) field;
`weNotifyUserIds` is the per-subscription recipient override. -/
structure Subscription where
  id : String
  name : String
  expiryDate : SolarDate
  periodValue : Int
  periodUnit : PeriodUnit
  useLunar : Bool
  isActive : Bool
  autoRenew : Bool
  reminderDays : Option Nat
  weNotifyUserIds : Option String
deriving Repr, DecidableEq

/-- One reminder decision: a subscription and its signed days-until-expiry. -/
structure ReminderDecision where
  sub : Subscription
  daysUntil : Int
deriving Repr, DecidableEq

/-- `sub.reminderDays || 7`: JS `||` treats both `undefined` and `0` as
falsy, so an unset or zero `reminderDays` falls back to 7. -/
def reminderWindow (sub : Subscription) : Int :=
  match sub.reminderDays with
  | none => 7
  | some n => if n = 0 then 7 else n

/-- `daysRemaining`: signed whole days from `today` (at midnight) to an
expiry date (at midnight) — `Math.ceil` of an exact day difference. -/
def daysBetween (expiry today : SolarDate) : Int :=
  (toDays expiry : Int) - toDays today

/-- The loop body of `checkExpiringSubscriptions` for one subscription:
the emitted notification (if any) and the written-back record (if
auto-renewal persisted one).  The outer `none` means the renewal
computation (an unbounded loop in the source) did not finish within `fuel`.
`sub.periodValue || 1` coerces a zero period value to 1 at this call site
(JS `||`); negative values pass through. -/
def processSubscription (T : LunarTable) (fuel : Nat) (today : SolarDate)
    (sub : Subscription) : Option (Option ReminderDecision × Option Subscription) :=
  if ¬ sub.isActive then some (none, none)
  else if daysBetween sub.expiryDate today < 0 ∧ sub.autoRenew then
    match calculateNextExpiryDate T fuel sub.expiryDate
        (if sub.periodValue = 0 then 1 else sub.periodValue) sub.periodUnit
        sub.useLunar today with
    | none => none
    | some nextExpiry =>
      if daysBetween nextExpiry today ≤ reminderWindow sub
          ∧ 0 ≤ daysBetween nextExpiry today then
        some (some ⟨{ sub with expiryDate := nextExpiry }, daysBetween nextExpiry today⟩,
          some { sub with expiryDate := nextExpiry })
      else some (none, some { sub with expiryDate := nextExpiry })
  else if daysBetween sub.expiryDate today ≤ reminderWindow sub
      ∧ 0 ≤ daysBetween sub.expiryDate today then
    some (some ⟨sub, daysBetween sub.expiryDate today⟩, none)
  else if daysBetween sub.expiryDate today < 0 then
    some (some ⟨sub, daysBetween sub.expiryDate today⟩, none)
  else some (none, none)

/-- `checkExpiringSubscriptions`: scan the subscriptions against `today`
(the current time normalized to start of day), auto-renew overdue
auto-renewing ones (persisting the renewed record), and collect the
reminder decisions.  Returns the decisions and the written-back records. -/
def checkExpiringSubscriptions (T : LunarTable) (fuel : Nat) (today : SolarDate) :
    List Subscription → Option (List ReminderDecision × List Subscription)
  | [] => some ([], [])
  | sub :: rest =>
    match processSubscription T fuel today sub with
    | none => none
    | some (dec, write) =>
      match checkExpiringSubscriptions T fuel today rest with
      | none => none
      | some (decs, writes) => some (dec.toList ++ decs, write.toList ++ writes)

/-! ## Rate limiter (`src/middleware/rateLimit.ts`) -/

/-- Decimal digits of a string, most significant first (the canonical-input
behaviour of JS `parseInt(v, 10)`; counter values written by the rate
limiter are always canonical decimal strings). -/
def parseNatAux : List Char → Nat → Nat
  | [], acc => acc
  | c :: cs, acc => parseNatAux cs (acc * 10 + (c.toNat - 48))

/-- `val ? parseInt(val, 10) : 0` for stored counter values. -/
def parseCounter (s : String) : Nat :=
  if s = "" then 0 else parseNatAux s.data 0

/-- The shared counter store (Cloudflare KV): an association list, newest
binding first.  TTL-based expiry happens inside the store and is not
modelled; window turnover comes from the bucket index in the key. -/
def KVStore := List (String × String)

def kvGet (kv : KVStore) (key : String) : Option String :=
  (kv.find? (fun e => e.1 == key)).map (fun e => e.2)

def kvPut (kv : KVStore) (key value : String) : KVStore :=
  (key, value) :: kv

structure RateLimitResult where
  limited : Bool
  current : Nat
  remaining : Nat
  resetTime : Nat
deriving Repr, DecidableEq

/-- `checkRateLimit(kv, identifier, action, {maxRequests, windowMs})` called
at time `now` (milliseconds): fixed-window counter under the key
`rate:{action}:{identifier}:{bucket}` with `bucket = ⌊now / windowMs⌋`.
Counter values are stored as decimal strings (`parseInt` ↔ `String.toNat?`;
an absent or empty value counts as 0). -/
def checkRateLimit (kv : KVStore) (identifier action : String)
    (maxRequests windowMs now : Nat) : RateLimitResult × KVStore :=
  let bucket := now / windowMs
  let key := "rate:" ++ action ++ ":" ++ identifier ++ ":" ++ toString bucket
  let current := (match kvGet kv key with
    | none => 0
    | some v => parseCounter v) + 1
  ({ limited := decide (current > maxRequests),
     current := current,
     remaining := maxRequests - current,
     resetTime := (bucket + 1) * windowMs },
   kvPut kv key (toString current))

/-- A sequence of `checkRateLimit` calls at the given times, threading the
(sequentially consistent) counter store; collects the `limited` flags. -/
def rateLimitRun (identifier action : String) (maxRequests windowMs : Nat) :
    KVStore → List Nat → List Bool
  | _, [] => []
  | kv, now :: rest =>
    let r := checkRateLimit kv identifier action maxRequests windowMs now
    r.1.limited :: rateLimitRun identifier action maxRequests windowMs r.2 rest

/-! ## Notification dispatcher and recipient distributor

Modelled from the spec: `src/services/notification.ts` is not among the
sources (only its tests and callers are). -/

/-- Outcome of one channel sender call: a returned success flag, or a raised
exception. -/
inductive SendOutcome where
  | ok (success : Bool)
  | raise
deriving Repr, DecidableEq

/-- One failure-log entry: the attempted channels partitioned into failures
and successes (each with its success flag). -/
structure FailureLogEntry where
  title : String
  failures : List (String × Bool)
  successes : List (String × Bool)
deriving Repr, DecidableEq

/-- The per-channel attempts (`results` in the source): each enabled channel
paired with its caught outcome (a raised exception is caught and recorded as
`success = false`). -/
def channelAttempts (enabled : List String) (send : String → SendOutcome) :
    List (String × Bool) :=
  enabled.map (fun ch =>
    (ch, match send ch with
         | .ok b => b
         | .raise => false))

/-- Modelled from the spec: `sendNotificationToAllChannels` — attempt every
channel in `enabledNotifiers` independently (each recorded outcome depends
only on that channel's own sender); when at least one attempt failed, append
one failure-log entry partitioning every attempted channel into failures and
successes.  The function is total: it returns the per-channel outcomes and
the appended entry (if any) and never raises. -/
def sendNotificationToAllChannels (title : String) (enabled : List String)
    (send : String → SendOutcome) : List (String × Bool) × Option FailureLogEntry :=
  if (channelAttempts enabled send).any (fun r => !r.2) then
    (channelAttempts enabled send,
     some ⟨title, (channelAttempts enabled send).filter (fun r => !r.2),
       (channelAttempts enabled send).filter (fun r => r.2)⟩)
  else (channelAttempts enabled send, none)

/-- Split a character list at commas and pipes, accumulating the current
entry. -/
def splitSepsAux : List Char → List Char → List String
  | [], acc => [String.mk acc.reverse]
  | c :: cs, acc =>
    if c = ',' ∨ c = '|' then String.mk acc.reverse :: splitSepsAux cs []
    else splitSepsAux cs (c :: acc)

/-- Split a recipient list on the separators used by the repository's tests
(commas and pipes), dropping empty entries.  Modelled from the spec
(comma-separated lists) and `tests/services/distribution.test.ts`
(pipe-separated global list). -/
def parseRecipients (s : String) : List String :=
  (splitSepsAux s.data []).filter (fun t => t ≠ "")

/-- The parsed per-subscription recipient override. -/
def overrideTargets (sub : Subscription) : List String :=
  match sub.weNotifyUserIds with
  | some s => parseRecipients s
  | none => []

/-- The recipient ids a subscription is routed to: its own non-empty
override if present, otherwise every id of the global list, with the empty
global list collapsing to the single empty-string key. -/
def recipientTargets (globalUserid : String) (sub : Subscription) : List String :=
  if overrideTargets sub ≠ [] then overrideTargets sub
  else
    match parseRecipients globalUserid with
    | [] => [""]
    | gs => gs

/-- Append `sub` to the group keyed `k`, keeping insertion order (JS `Map`). -/
def addToGroup (m : List (String × List Subscription)) (k : String)
    (sub : Subscription) : List (String × List Subscription) :=
  match m with
  | [] => [(k, [sub])]
  | (k', l) :: rest =>
    if k' = k then (k', l ++ [sub]) :: rest
    else (k', l) :: addToGroup rest k sub

/-- Modelled from the spec: `distributeWeNotifyNotifications` — fan each
subscription into the group of every one of its recipient ids (multicast). -/
def distributeWeNotifyNotifications (subs : List Subscription)
    (globalUserid : String) : List (String × List Subscription) :=
  subs.foldl (fun m sub =>
    (recipientTargets globalUserid sub).foldl (fun acc u => addToGroup acc u sub) m) []

/-! ## Helper lemmas about the loops -/

/-- A concrete sample encoding table used to instantiate theorems on
concrete inputs: no leap months, all months big. -/
def sampleTable : LunarTable := ⟨fun _ => 0, fun _ _ => true, fun _ => false⟩

/-- Days of the covered lunar years before year `1900 + k`. -/
def yearsAux (T : LunarTable) : Nat → Nat
  | 0 => 0
  | k + 1 => yearsAux T k + lunarYearDays T (1900 + k)

/-- Days of the covered lunar years before year `y`. -/
def yearsPrefixRaw (T : LunarTable) (y : Nat) : Nat := yearsAux T (y - 1900)

/-! ## Month positions and their epoch offsets -/

/-- A month position `(year, index into the year's month sequence)` that
actually denotes a month of the covered table region. -/
def PosValid (T : LunarTable) (p : Nat × Nat) : Prop :=
  1900 ≤ p.1 ∧ p.2 < (lunarMonths T p.1).length

/-- Raw epoch offset of the first day of the month at position `p`. -/
def posOffset (T : LunarTable) (p : Nat × Nat) : Nat :=
  yearsPrefixRaw T p.1 + segSum ((monthSegs T p.1).take p.2)

/-! # Theorems -/

theorem daysInYear_pos (y : Nat) : 0 < daysInYear y := by
  unfold daysInYear; split <;> omega

theorem daysInYear_ge (y : Nat) : 365 ≤ daysInYear y := by
  unfold daysInYear; split <;> omega

theorem daysInMonth_pos (y m : Nat) : 0 < daysInMonth y m := by
  unfold daysInMonth; split
  · split <;> omega
  · split <;> omega

theorem daysInMonth_le (y m : Nat) : daysInMonth y m ≤ 31 := by
  unfold daysInMonth; split
  · split <;> omega
  · split <;> omega

/-- The twelve months of a year sum to the year length. -/
theorem monthPrefix_twelve (y : Nat) : monthPrefix y 12 = daysInYear y := by
  cases h : isLeapYear y <;>
    simp [monthPrefix, daysInMonth, daysInYear, h]

theorem monthPrefix_succ (y k : Nat) :
    monthPrefix y (k + 1) = monthPrefix y k + daysInMonth y (k + 1) := rfl

theorem monthPrefix_mono (y : Nat) {a b : Nat} (h : a ≤ b) :
    monthPrefix y a ≤ monthPrefix y b := by
  induction b with
  | zero => simp [Nat.le_zero.mp h]
  | succ b ih =>
    rcases Nat.lt_or_ge a (b + 1) with hb | hb
    · exact le_trans (ih (by omega)) (by rw [monthPrefix_succ]; omega)
    · have ha : a = b + 1 := by omega
      subst ha; exact le_refl _

theorem sumYearsFrom_succ_right (y k : Nat) :
    sumYearsFrom y (k + 1) = sumYearsFrom y k + daysInYear (y + k) := by
  induction k generalizing y with
  | zero => simp [sumYearsFrom]
  | succ k ih =>
    have h1 : sumYearsFrom y (k + 1 + 1) = daysInYear y + sumYearsFrom (y + 1) (k + 1) := rfl
    have h2 : sumYearsFrom y (k + 1) = daysInYear y + sumYearsFrom (y + 1) k := rfl
    rw [h1, ih (y + 1), h2, show y + 1 + k = y + (k + 1) from by omega]
    omega

set_option maxHeartbeats 1600000 in
/-- One more year in front of the closed form adds one year length. -/
theorem daysBeforeYear_succ (y : Nat) :
    daysBeforeYear (y + 1) = daysBeforeYear y + daysInYear y := by
  have h : isLeapYear y = true ↔ ((y % 4 = 0 ∧ ¬ y % 100 = 0) ∨ y % 400 = 0) := by
    simp [isLeapYear, Bool.or_eq_true, Bool.and_eq_true, beq_iff_eq,
      bne_iff_ne, ne_eq]
  unfold daysBeforeYear daysInYear
  by_cases hl : isLeapYear y = true
  · rw [if_pos hl]; rw [h] at hl; omega
  · rw [if_neg hl]; rw [h] at hl; push_neg at hl; omega

theorem daysBeforeYear_eq_sum (y : Nat) : daysBeforeYear y = sumYearsFrom 0 y := by
  induction y with
  | zero => rfl
  | succ y ih =>
    rw [daysBeforeYear_succ, sumYearsFrom_succ_right, ih, Nat.zero_add]

theorem sumYearsFrom_ge (k : Nat) : ∀ y, k ≤ sumYearsFrom y k := by
  induction k with
  | zero => intro y; exact Nat.zero_le _
  | succ k ih =>
    intro y
    have h : sumYearsFrom y (k + 1) = daysInYear y + sumYearsFrom (y + 1) k := rfl
    have := ih (y + 1)
    have := daysInYear_pos y
    omega

theorem yearOfDaysAux_complete (k : Nat) :
    ∀ y fuel r : Nat, k < fuel → r < daysInYear (y + k) →
      yearOfDaysAux fuel y (sumYearsFrom y k + r) = (y + k, r) := by
  induction k with
  | zero =>
    intro y fuel r hf hr
    match fuel, hf with
    | f + 1, _ =>
      show yearOfDaysAux (f + 1) y (sumYearsFrom y 0 + r) = (y + 0, r)
      have h0 : sumYearsFrom y 0 = 0 := rfl
      unfold yearOfDaysAux
      rw [h0, Nat.zero_add, if_pos (by simpa using hr)]
      simp
  | succ k ih =>
    intro y fuel r hf hr
    match fuel, hf with
    | f + 1, _ =>
      have hpos := daysInYear_pos y
      have hexp : sumYearsFrom y (k + 1) = daysInYear y + sumYearsFrom (y + 1) k := rfl
      have hno : ¬ (sumYearsFrom y (k + 1) + r < daysInYear y) := by omega
      unfold yearOfDaysAux
      rw [if_neg hno]
      have harg : sumYearsFrom y (k + 1) + r - daysInYear y = sumYearsFrom (y + 1) k + r := by
        omega
      rw [harg, ih (y + 1) f r (by omega)
          (by rw [show y + 1 + k = y + (k + 1) from by omega]; exact hr),
        show y + 1 + k = y + (k + 1) from by omega]

theorem yearOfDays_complete (y : Nat) :
    ∀ k r : Nat, r < daysInYear (y + k) →
      yearOfDays y (sumYearsFrom y k + r) = (y + k, r) := by
  intro k r hr
  have hge := sumYearsFrom_ge k y
  exact yearOfDaysAux_complete k y (sumYearsFrom y k + r + 1) r (by omega) hr

theorem yearOfDaysAux_spec (fuel : Nat) :
    ∀ y n : Nat, n < fuel →
      ∃ k r, yearOfDaysAux fuel y n = (y + k, r) ∧
        n = sumYearsFrom y k + r ∧ r < daysInYear (y + k) := by
  induction fuel with
  | zero => intro y n h; omega
  | succ f ih =>
    intro y n h
    unfold yearOfDaysAux
    by_cases hlt : n < daysInYear y
    · exact ⟨0, n, by rw [if_pos hlt]; simp, by simp [sumYearsFrom], by simpa using hlt⟩
    · have h365 := daysInYear_ge y
      rw [if_neg hlt]
      obtain ⟨k, r, heq, hsum, hr⟩ := ih (y + 1) (n - daysInYear y) (by omega)
      refine ⟨k + 1, r, ?_, ?_, ?_⟩
      · rw [heq, show y + 1 + k = y + (k + 1) from by omega]
      · have hexp : sumYearsFrom y (k + 1) = daysInYear y + sumYearsFrom (y + 1) k := rfl
        omega
      · rw [show y + (k + 1) = y + 1 + k from by omega]; exact hr

theorem yearOfDays_spec (n : Nat) :
    ∀ y, ∃ k r, yearOfDays y n = (y + k, r) ∧
      n = sumYearsFrom y k + r ∧ r < daysInYear (y + k) := by
  intro y
  exact yearOfDaysAux_spec (n + 1) y n (by omega)

theorem sumMonthsFrom_succ_right (y m k : Nat) :
    sumMonthsFrom y m (k + 1) = sumMonthsFrom y m k + daysInMonth y (m + k) := by
  induction k generalizing m with
  | zero => simp [sumMonthsFrom]
  | succ k ih =>
    have h1 : sumMonthsFrom y m (k + 1 + 1) = daysInMonth y m + sumMonthsFrom y (m + 1) (k + 1) := rfl
    have h2 : sumMonthsFrom y m (k + 1) = daysInMonth y m + sumMonthsFrom y (m + 1) k := rfl
    rw [h1, ih (m + 1), h2, show m + 1 + k = m + (k + 1) from by omega]
    omega

theorem sumMonthsFrom_one (y : Nat) : ∀ k, sumMonthsFrom y 1 k = monthPrefix y k := by
  intro k
  induction k with
  | zero => rfl
  | succ k ih =>
    rw [sumMonthsFrom_succ_right, ih, monthPrefix_succ,
      show 1 + k = k + 1 from by omega]

theorem monthOfDaysAux_complete (y k : Nat) :
    ∀ fuel m r : Nat, k < fuel → 1 ≤ m → m + k ≤ 12 → r < daysInMonth y (m + k) →
      monthOfDaysAux y fuel m (sumMonthsFrom y m k + r) = (m + k, r) := by
  induction k with
  | zero =>
    intro fuel m r hf hm hmk hr
    match fuel, hf with
    | f + 1, _ =>
      have h0 : sumMonthsFrom y m 0 = 0 := rfl
      unfold monthOfDaysAux
      rw [h0, Nat.zero_add]
      by_cases h12 : 12 ≤ m
      · rw [if_pos h12]; simp
      · rw [if_neg h12, if_pos (by simpa using hr)]; simp
  | succ k ih =>
    intro fuel m r hf hm hmk hr
    match fuel, hf with
    | f + 1, _ =>
      have hpos := daysInMonth_pos y m
      have hexp : sumMonthsFrom y m (k + 1) = daysInMonth y m + sumMonthsFrom y (m + 1) k := rfl
      have h12 : ¬ 12 ≤ m := by omega
      have hno : ¬ (sumMonthsFrom y m (k + 1) + r < daysInMonth y m) := by omega
      unfold monthOfDaysAux
      rw [if_neg h12, if_neg hno]
      have harg : sumMonthsFrom y m (k + 1) + r - daysInMonth y m
          = sumMonthsFrom y (m + 1) k + r := by omega
      rw [harg, ih f (m + 1) r (by omega) (by omega) (by omega)
          (by rw [show m + 1 + k = m + (k + 1) from by omega]; exact hr),
        show m + 1 + k = m + (k + 1) from by omega]

theorem monthOfDaysAux_spec (y : Nat) :
    ∀ fuel m n : Nat, 13 - m ≤ fuel → 1 ≤ m → m ≤ 12 → n < sumMonthsFrom y m (13 - m) →
      ∃ k r, monthOfDaysAux y fuel m n = (m + k, r) ∧ m + k ≤ 12 ∧
        n = sumMonthsFrom y m k + r ∧ r < daysInMonth y (m + k) := by
  intro fuel
  induction fuel with
  | zero => intro m n hf hm hm12 hn; omega
  | succ f ih =>
    intro m n hf hm hm12 hn
    unfold monthOfDaysAux
    by_cases h12 : 12 ≤ m
    · have hm' : m = 12 := by omega
      subst hm'
      have hone : sumMonthsFrom y 12 (13 - 12) = daysInMonth y 12 := by
        norm_num [sumMonthsFrom]
      rw [if_pos (by omega)]
      refine ⟨0, n, by simp, by omega, by simp [sumMonthsFrom], ?_⟩
      rw [show (12 + 0 : Nat) = 12 from rfl]
      omega
    · rw [if_neg h12]
      by_cases hlt : n < daysInMonth y m
      · rw [if_pos hlt]
        refine ⟨0, n, by simp, by omega, by simp [sumMonthsFrom], ?_⟩
        rw [Nat.add_zero]; exact hlt
      · rw [if_neg hlt]
        have hcap : sumMonthsFrom y m (13 - m) =
            daysInMonth y m + sumMonthsFrom y (m + 1) (13 - (m + 1)) := by
          rw [show 13 - m = (13 - (m + 1)) + 1 from by omega]
          rfl
        obtain ⟨k, r, heq, hk12, hsum, hr⟩ :=
          ih (m + 1) (n - daysInMonth y m) (by omega) (by omega) (by omega) (by omega)
        refine ⟨k + 1, r, ?_, by omega, ?_, ?_⟩
        · rw [heq, show m + 1 + k = m + (k + 1) from by omega]
        · have hexp : sumMonthsFrom y m (k + 1)
              = daysInMonth y m + sumMonthsFrom y (m + 1) k := rfl
          omega
        · rw [show m + (k + 1) = m + 1 + k from by omega]; exact hr

theorem monthOfDays_complete (y : Nat) :
    ∀ k m r : Nat, 1 ≤ m → m + k ≤ 12 → r < daysInMonth y (m + k) →
      monthOfDays y m (sumMonthsFrom y m k + r) = (m + k, r) := by
  intro k m r hm hmk hr
  exact monthOfDaysAux_complete y k 12 m r (by omega) hm hmk hr

theorem monthOfDays_spec (y : Nat) :
    ∀ m n : Nat, 1 ≤ m → m ≤ 12 → n < sumMonthsFrom y m (13 - m) →
      ∃ k r, monthOfDays y m n = (m + k, r) ∧ m + k ≤ 12 ∧
        n = sumMonthsFrom y m k + r ∧ r < daysInMonth y (m + k) := by
  intro m n hm hm12 hn
  exact monthOfDaysAux_spec y 12 m n (by omega) hm hm12 hn

/-- `fromDays` produces a valid date and is a right inverse of `toDays`. -/
theorem fromDays_spec (n : Nat) :
    ValidDate (fromDays n) ∧ toDays (fromDays n) = n := by
  obtain ⟨Y, r, hy, hsum, hr⟩ := yearOfDays_spec n 0
  rw [Nat.zero_add] at hy hr
  have hcap : r < sumMonthsFrom Y 1 (13 - 1) := by
    rw [show (13 - 1 : Nat) = 12 from rfl, sumMonthsFrom_one, monthPrefix_twelve]
    exact hr
  obtain ⟨k, r2, hmeq, hk12, hmsum, hr2⟩ :=
    monthOfDays_spec Y 1 r (by omega) (by omega) hcap
  have hfd : fromDays n = ⟨Y, 1 + k, r2 + 1⟩ := by
    unfold fromDays
    rw [hy]
    simp only [hmeq]
  rw [hfd]
  constructor
  · show 1 ≤ 1 + k ∧ 1 + k ≤ 12 ∧ 1 ≤ r2 + 1 ∧ r2 + 1 ≤ daysInMonth Y (1 + k)
    exact ⟨by omega, by omega, by omega, by omega⟩
  · show daysBeforeYear Y + monthPrefix Y (1 + k - 1) + (r2 + 1 - 1) = n
    rw [show 1 + k - 1 = k from by omega, ← sumMonthsFrom_one, daysBeforeYear_eq_sum]
    omega

/-- `fromDays` is a left inverse of `toDays` on valid dates. -/
theorem toDays_fromDays {d : SolarDate} (h : ValidDate d) : fromDays (toDays d) = d := by
  obtain ⟨hm1, hm12, hd1, hdm⟩ := h
  have hmp : monthPrefix d.year (d.month - 1) + daysInMonth d.year d.month =
      monthPrefix d.year d.month := by
    rw [show d.month = (d.month - 1) + 1 from by omega, monthPrefix_succ,
      show d.month - 1 + 1 - 1 = d.month - 1 from by omega]
  have hrlt : monthPrefix d.year (d.month - 1) + (d.day - 1) < daysInYear d.year := by
    have := monthPrefix_mono d.year hm12
    rw [monthPrefix_twelve] at this
    omega
  have hy : yearOfDays 0 (toDays d) =
      (d.year, monthPrefix d.year (d.month - 1) + (d.day - 1)) := by
    unfold toDays
    rw [daysBeforeYear_eq_sum, Nat.add_assoc]
    have := yearOfDays_complete 0 d.year (monthPrefix d.year (d.month - 1) + (d.day - 1))
      (by simpa using hrlt)
    simpa using this
  have hmo : monthOfDays d.year 1 (monthPrefix d.year (d.month - 1) + (d.day - 1)) =
      (d.month, d.day - 1) := by
    rw [← sumMonthsFrom_one]
    have := monthOfDays_complete d.year (d.month - 1) 1 (d.day - 1)
      (by omega) (by omega) (by rw [show 1 + (d.month - 1) = d.month from by omega]; omega)
    rw [this, show 1 + (d.month - 1) = d.month from by omega]
  unfold fromDays
  rw [hy]
  simp only [hmo]
  have : d.day - 1 + 1 = d.day := by omega
  rw [this]

theorem monthIdxDays_succ (i : Nat) :
    monthIdxDays (i + 1) = monthIdxDays i + daysInMonth (i / 12) (i % 12 + 1) := by
  by_cases h : i % 12 = 11
  · have h1 : (i + 1) / 12 = i / 12 + 1 := by omega
    have h2 : (i + 1) % 12 = 0 := by omega
    unfold monthIdxDays
    rw [h1, h2, h]
    norm_num
    have h3 := daysBeforeYear_succ (i / 12)
    have h4 := monthPrefix_succ (i / 12) 11
    norm_num at h4
    have h5 := monthPrefix_twelve (i / 12)
    have h0 : monthPrefix (i / 12 + 1) 0 = 0 := rfl
    omega
  · have h1 : (i + 1) / 12 = i / 12 := by omega
    have h2 : (i + 1) % 12 = i % 12 + 1 := by omega
    unfold monthIdxDays
    rw [h1, h2, monthPrefix_succ]
    omega

theorem monthIdxDays_mono : Monotone monthIdxDays := by
  apply monotone_nat_of_le_succ
  intro i
  rw [monthIdxDays_succ]
  omega

theorem daysBeforeYear_mono : Monotone daysBeforeYear := by
  apply monotone_nat_of_le_succ
  intro y
  have h := daysBeforeYear_succ y
  omega

theorem toDays_eq_monthIdx {d : SolarDate} (h : ValidDate d) :
    toDays d = monthIdxDays (12 * d.year + (d.month - 1)) + (d.day - 1) := by
  obtain ⟨hm1, hm12, _, _⟩ := h
  unfold toDays monthIdxDays
  rw [show (12 * d.year + (d.month - 1)) / 12 = d.year from by omega,
      show (12 * d.year + (d.month - 1)) % 12 = d.month - 1 from by omega]

theorem addDays_spec {d : SolarDate} (_ : ValidDate d) (v : Int) (hv : 1 ≤ v) :
    ValidDate (addDays d v) ∧ toDays d + 1 ≤ toDays (addDays d v) := by
  unfold addDays
  have h1 := fromDays_spec ((toDays d + v : Int)).toNat
  refine ⟨h1.1, ?_⟩
  rw [h1.2]
  omega

theorem addMonths_spec {d : SolarDate} (h : ValidDate d) (v : Int) (hv : 1 ≤ v) :
    ValidDate (addMonths d v) ∧ toDays d + 1 ≤ toDays (addMonths d v) := by
  obtain ⟨hm1, hm12, hd1, hdm⟩ := h
  have hidx : ((d.year * 12 + ((d.month : Int) - 1) + v)).toNat
      = (12 * d.year + (d.month - 1)) + v.toNat := by omega
  unfold addMonths
  have hspec := fromDays_spec
    (monthIdxDays ((d.year * 12 + ((d.month : Int) - 1) + v)).toNat + (d.day - 1))
  refine ⟨hspec.1, ?_⟩
  rw [hspec.2, hidx]
  have hmono := monthIdxDays_mono
    (show (12 * d.year + (d.month - 1)) + 1 ≤ (12 * d.year + (d.month - 1)) + v.toNat from by omega)
  have hsucc := monthIdxDays_succ (12 * d.year + (d.month - 1))
  rw [show (12 * d.year + (d.month - 1)) / 12 = d.year from by omega,
      show (12 * d.year + (d.month - 1)) % 12 + 1 = d.month from by omega] at hsucc
  have htd : toDays d = monthIdxDays (12 * d.year + (d.month - 1)) + (d.day - 1) :=
    toDays_eq_monthIdx ⟨hm1, hm12, hd1, hdm⟩
  omega

theorem addYears_spec {d : SolarDate} (h : ValidDate d) (v : Int) (hv : 1 ≤ v) :
    ValidDate (addYears d v) ∧ toDays d + 1 ≤ toDays (addYears d v) := by
  obtain ⟨hm1, hm12, hd1, hdm⟩ := h
  have hy : ((d.year + v : Int)).toNat = d.year + v.toNat := by omega
  unfold addYears
  have hspec := fromDays_spec (daysBeforeYear ((d.year + v : Int)).toNat
    + monthPrefix ((d.year + v : Int)).toNat (d.month - 1) + (d.day - 1))
  refine ⟨hspec.1, ?_⟩
  rw [hspec.2, hy]
  have hmono := daysBeforeYear_mono
    (show d.year + 1 ≤ d.year + v.toNat from by omega)
  have hsucc := daysBeforeYear_succ d.year
  have hmp : monthPrefix d.year (d.month - 1) + daysInMonth d.year d.month =
      monthPrefix d.year d.month := by
    rw [show d.month = (d.month - 1) + 1 from by omega, monthPrefix_succ,
      show d.month - 1 + 1 - 1 = d.month - 1 from by omega]
  have hmp12 := monthPrefix_mono d.year hm12
  rw [monthPrefix_twelve] at hmp12
  unfold toDays
  omega

theorem solarStep_spec {d : SolarDate} (h : ValidDate d) (pv : Int) (hv : 1 ≤ pv)
    (pu : PeriodUnit) :
    ValidDate (solarStep pv pu d) ∧ toDays d + 1 ≤ toDays (solarStep pv pu d) := by
  cases pu
  · exact addDays_spec h pv hv
  · exact addMonths_spec h pv hv
  · exact addYears_spec h pv hv

theorem mem_lunarMonths {T : LunarTable} {y m : Nat} {b : Bool}
    (h : (m, b) ∈ lunarMonths T y) :
    1 ≤ m ∧ m ≤ 12 ∧ (b = true → T.leapMonth y = m) := by
  unfold lunarMonths at h
  rw [List.mem_flatMap] at h
  obtain ⟨i, hi, hq⟩ := h
  rw [List.mem_range] at hi
  by_cases hl : T.leapMonth y = i + 1
  · rw [if_pos hl] at hq
    simp only [List.mem_cons, List.not_mem_nil, or_false, Prod.mk.injEq] at hq
    rcases hq with ⟨hm, hb⟩ | ⟨hm, hb⟩ <;> subst hm <;> subst hb
    · exact ⟨by omega, by omega, by intro hc; cases hc⟩
    · exact ⟨by omega, by omega, fun _ => by omega⟩
  · rw [if_neg hl] at hq
    simp only [List.mem_cons, List.not_mem_nil, or_false, Prod.mk.injEq] at hq
    obtain ⟨hm, hb⟩ := hq
    subst hm; subst hb
    exact ⟨by omega, by omega, by intro hc; cases hc⟩

theorem lunarMonthLen_pos {T : LunarTable} {y m : Nat} {b : Bool}
    (h : (m, b) ∈ lunarMonths T y) : 0 < lunarMonthLen T y (m, b) := by
  obtain ⟨h1, h2, h3⟩ := mem_lunarMonths h
  cases b with
  | false =>
    have he : lunarMonthLen T y (m, false) = T.monthDays y m := rfl
    rw [he]; unfold LunarTable.monthDays; split <;> omega
  | true =>
    have hlm := h3 rfl
    have he : lunarMonthLen T y (m, true) = T.leapDays y := rfl
    rw [he]; unfold LunarTable.leapDays
    rw [if_neg (by omega)]
    split <;> omega

theorem posLen_pos (T : LunarTable) (p : Nat × Nat) : 0 < posLen T p := by
  unfold posLen
  split
  · next q hq =>
    obtain ⟨m, b⟩ := q
    exact lunarMonthLen_pos (List.get?_mem hq)
  · omega

/-- If the loop body does not move the date, the solar loop never finishes. -/
theorem solarLoop_stuck (target : SolarDate) (pv : Int) (pu : PeriodUnit)
    (cur : SolarDate) (hlt : toDays cur < toDays target)
    (hfix : solarStep pv pu cur = cur) :
    ∀ fuel, solarLoop target pv pu fuel cur = none := by
  intro fuel
  induction fuel with
  | zero => unfold solarLoop; rw [if_pos hlt]
  | succ f ih => unfold solarLoop; rw [if_pos hlt]; simpa [hfix] using ih

/-- For a positive period value the solar loop terminates: with enough fuel
it returns the first iterate of the step function that reaches the target. -/
theorem solarLoop_terminates (target : SolarDate) (pv : Int) (hpv : 1 ≤ pv)
    (pu : PeriodUnit) :
    ∀ gap cur, toDays target - toDays cur ≤ gap → ValidDate cur →
      ∃ k r, (∀ fuel, k ≤ fuel → solarLoop target pv pu fuel cur = some r) ∧
        r = (solarStep pv pu)^[k] cur ∧ toDays target ≤ toDays r ∧
        ∀ j < k, toDays ((solarStep pv pu)^[j] cur) < toDays target := by
  intro gap
  induction gap with
  | zero =>
    intro cur hgap _
    refine ⟨0, cur, fun fuel _ => ?_, rfl, by omega, by omega⟩
    unfold solarLoop
    rw [if_neg (by omega)]
  | succ gap ih =>
    intro cur hgap hval
    by_cases hlt : toDays cur < toDays target
    · obtain ⟨hval', hstep⟩ := solarStep_spec hval pv hpv pu
      obtain ⟨k, r, hrun, hiter, hge, hmin⟩ :=
        ih (solarStep pv pu cur) (by omega) hval'
      refine ⟨k + 1, r, ?_, ?_, hge, ?_⟩
      · intro fuel hfuel
        match fuel, hfuel with
        | f + 1, _ =>
          unfold solarLoop
          rw [if_pos hlt]
          exact hrun f (by omega)
      · rw [hiter, Function.iterate_succ_apply]
      · intro j hj
        match j with
        | 0 => simpa using hlt
        | j + 1 =>
          rw [Function.iterate_succ_apply]
          exact hmin j (by omega)
    · refine ⟨0, cur, fun fuel _ => ?_, rfl, by omega, by omega⟩
      unfold solarLoop
      rw [if_neg hlt]

/-! ## Claim C8 — idempotence on future dates -/

/-- C8: if the current expiry is not before the reference date,
`calculateNextExpiryDate` returns it unchanged, for every period, unit,
mode flag and fuel. -/
theorem claim_C8_next_due_date_idempotent (T : LunarTable) (fuel : Nat)
    (currentExpiry : SolarDate) (periodValue : Int) (periodUnit : PeriodUnit)
    (useLunar : Bool) (targetDate : SolarDate)
    (h : toDays targetDate ≤ toDays currentExpiry) :
    calculateNextExpiryDate T fuel currentExpiry periodValue periodUnit useLunar targetDate
      = some currentExpiry := by
  unfold calculateNextExpiryDate
  rw [if_pos h]

/-- C8 witness: a concrete expiry after the reference date is returned
unchanged. -/
theorem claim_C8_witness :
    toDays (⟨2024, 3, 15⟩ : SolarDate) ≤ toDays (⟨2024, 5, 1⟩ : SolarDate) ∧
    calculateNextExpiryDate sampleTable 0 ⟨2024, 5, 1⟩ 1 .month false ⟨2024, 3, 15⟩
      = some ⟨2024, 5, 1⟩ :=
  ⟨by decide,
   claim_C8_next_due_date_idempotent sampleTable 0 ⟨2024, 5, 1⟩ 1 .month false
     ⟨2024, 3, 15⟩ (by decide)⟩

/-! ## Claim C2 — solar-mode advance loop -/

/-- C2 counterexample: at the claim's example input
(`2024-01-01`, one month, reference `2024-03-15`) the function returns
`2024-04-01`, not the claimed `2024-03-01` — `2024-03-01` is still before
the reference, so the loop advances once more. -/
theorem claim_C2_counterexample :
    calculateNextExpiryDate sampleTable 100 ⟨2024, 1, 1⟩ 1 .month false ⟨2024, 3, 15⟩
      = some ⟨2024, 4, 1⟩ ∧
    (some (⟨2024, 4, 1⟩ : SolarDate) ≠ some (⟨2024, 3, 1⟩ : SolarDate)) := by
  exact ⟨by decide, by decide⟩

/-- C2 (amended): in solar mode, when the current expiry is before the
reference and the period value is positive, `calculateNextExpiryDate`
advances the expiry by whole periods and returns the first iterate that is
`≥ reference` (for every sufficient fuel); the example
`nextDueDate(2024-01-01, 1 month, solar, 2024-03-15)` returns `2024-04-01`. -/
theorem claim_C2_solar_advance (T : LunarTable) (cur target : SolarDate)
    (pv : Int) (pu : PeriodUnit) (hval : ValidDate cur) (hpv : 1 ≤ pv)
    (hlt : toDays cur < toDays target) :
    (∃ k r, (∀ fuel, k ≤ fuel →
        calculateNextExpiryDate T fuel cur pv pu false target = some r) ∧
      r = (solarStep pv pu)^[k] cur ∧ toDays target ≤ toDays r ∧
      (∀ j < k, toDays ((solarStep pv pu)^[j] cur) < toDays target)) ∧
    calculateNextExpiryDate sampleTable 100 ⟨2024, 1, 1⟩ 1 .month false ⟨2024, 3, 15⟩
      = some ⟨2024, 4, 1⟩ := by
  constructor
  · obtain ⟨k, r, hrun, hit, hge, hmin⟩ :=
      solarLoop_terminates target pv hpv pu (toDays target - toDays cur) cur
        (le_refl _) hval
    refine ⟨k, r, ?_, hit, hge, hmin⟩
    intro fuel hf
    unfold calculateNextExpiryDate
    rw [if_neg (by omega), if_neg (by simp)]
    exact hrun fuel hf
  · decide

/-- C2 witness: the loop characterization applied at the example input. -/
theorem claim_C2_witness :
    ∃ k r, (∀ fuel, k ≤ fuel →
        calculateNextExpiryDate sampleTable fuel ⟨2024, 1, 1⟩ 1 .month false ⟨2024, 3, 15⟩
          = some r) ∧
      r = (solarStep 1 .month)^[k] (⟨2024, 1, 1⟩ : SolarDate) ∧
      toDays (⟨2024, 3, 15⟩ : SolarDate) ≤ toDays r ∧
      (∀ j < k, toDays ((solarStep 1 .month)^[j] (⟨2024, 1, 1⟩ : SolarDate))
        < toDays (⟨2024, 3, 15⟩ : SolarDate)) :=
  (claim_C2_solar_advance sampleTable ⟨2024, 1, 1⟩ ⟨2024, 3, 15⟩ 1 .month
    (by decide) (by decide) (by decide)).1

/-! ## Claim C3 — termination for non-positive period values -/

/-- C3: `calculateNextExpiryDate` has no defensive coercion of a
non-positive period value: with `periodValue = 0` in solar mode the date
never advances (`setDate(getDate() + 0)`), so the loop never finishes —
the model returns `none` for every amount of fuel. -/
theorem claim_C3_zero_period_diverges :
    ∀ fuel,
      calculateNextExpiryDate sampleTable fuel ⟨2024, 1, 1⟩ 0 .day false ⟨2024, 3, 15⟩
        = none := by
  intro fuel
  unfold calculateNextExpiryDate
  rw [if_neg (by decide), if_neg (by simp)]
  exact solarLoop_stuck ⟨2024, 3, 15⟩ 0 .day ⟨2024, 1, 1⟩ (by decide) (by decide) fuel

/-! ## Claim C4 — fixed-window rate limiting -/

/-- C4: `checkRateLimit` reports `limited` exactly when the incremented
counter strictly exceeds `maxRequests`; and in the concrete scenario with
`maxRequests = 10`, `windowMs = 60000` and a sequentially threaded counter
store, the first ten calls of the window are not limited, the eleventh call
of the same window is limited, and the first call of the next window is not
limited again. -/
theorem claim_C4_rate_limit_window :
    (∀ (kv : KVStore) (identifier action : String) (maxRequests windowMs now : Nat),
      ((checkRateLimit kv identifier action maxRequests windowMs now).1.limited = true
        ↔ maxRequests
            < (checkRateLimit kv identifier action maxRequests windowMs now).1.current)) ∧
    rateLimitRun "ip" "login" 10 60000 []
        [0, 1000, 2000, 3000, 4000, 5000, 6000, 7000, 8000, 9000, 10500, 60000]
      = [false, false, false, false, false, false, false, false, false, false,
         true, false] := by
  constructor
  · intro kv identifier action maxRequests windowMs now
    simp [checkRateLimit]
  · decide

/-- C4 witness: the limited-iff-over-limit equivalence at a concrete call. -/
theorem claim_C4_witness :
    (checkRateLimit [] "ip" "login" 10 60000 0).1.limited = true
      ↔ 10 < (checkRateLimit [] "ip" "login" 10 60000 0).1.current :=
  claim_C4_rate_limit_window.1 [] "ip" "login" 10 60000 0

/-! ## Claim C5 — isolated-failure dispatch -/

/-- C5: every enabled channel is attempted (in order), the outcome recorded
for a channel is computed from its own sender alone — a raising sender is
recorded as a failure and prevents no other attempt —, an appended
failure-log entry partitions exactly the attempted channels into failures
and successes, and on the concrete two-channel instance (one raising, one
succeeding) the entry holds exactly one failure and one success.  The
modelled dispatcher is a total function: it returns without raising. -/
theorem claim_C5_dispatch_isolated_failures :
    (∀ (title : String) (enabled : List String) (send : String → SendOutcome),
      ((sendNotificationToAllChannels title enabled send).1.map Prod.fst = enabled) ∧
      (∀ ch ∈ enabled,
        (ch, match send ch with | .ok b => b | .raise => false)
          ∈ (sendNotificationToAllChannels title enabled send).1) ∧
      (∀ e, (sendNotificationToAllChannels title enabled send).2 = some e →
        e.title = title ∧
        e.failures
          = (sendNotificationToAllChannels title enabled send).1.filter (fun r => !r.2) ∧
        e.successes
          = (sendNotificationToAllChannels title enabled send).1.filter (fun r => r.2))) ∧
    sendNotificationToAllChannels "t" ["notifyx", "telegram"]
        (fun ch => if ch = "notifyx" then .ok true else .raise)
      = ([("notifyx", true), ("telegram", false)],
         some ⟨"t", [("telegram", false)], [("notifyx", true)]⟩) := by
  constructor
  · intro title enabled send
    have hfst : (sendNotificationToAllChannels title enabled send).1
        = channelAttempts enabled send := by
      unfold sendNotificationToAllChannels
      split <;> rfl
    refine ⟨?_, ?_, ?_⟩
    · rw [hfst]
      unfold channelAttempts
      simp [List.map_map, Function.comp_def]
    · intro ch hch
      rw [hfst]
      exact List.mem_map_of_mem _ hch
    · intro e he
      unfold sendNotificationToAllChannels at he
      split at he
      · obtain rfl := Option.some.inj he
        rw [hfst]
        exact ⟨rfl, rfl, rfl⟩
      · exact absurd he (by simp)
  · decide

/-- C5 witness: the partition property applied to the concrete two-channel
dispatch. -/
theorem claim_C5_witness :
    (sendNotificationToAllChannels "t" ["notifyx", "telegram"]
        (fun ch => if ch = "notifyx" then .ok true else .raise)).1.map Prod.fst
      = ["notifyx", "telegram"] :=
  ((claim_C5_dispatch_isolated_failures.1 "t" ["notifyx", "telegram"]
    (fun ch => if ch = "notifyx" then .ok true else .raise)).1)

/-! ## Claim C7 — recipient distribution -/

theorem lookup_addToGroup_self (m : List (String × List Subscription))
    (k : String) (sub : Subscription) :
    ∃ l, List.lookup k (addToGroup m k sub) = some l ∧ sub ∈ l := by
  induction m with
  | nil =>
    exact ⟨[sub], by simp [addToGroup, List.lookup], by simp⟩
  | cons e rest ih =>
    obtain ⟨k', l⟩ := e
    by_cases h : k' = k
    · subst h
      refine ⟨l ++ [sub], ?_, by simp⟩
      unfold addToGroup
      rw [if_pos rfl]
      simp [List.lookup]
    · refine ih.imp (fun l' hl' => ⟨?_, hl'.2⟩)
      unfold addToGroup
      rw [if_neg h]
      have hne : (k == k') = false := by
        simp [beq_eq_false_iff_ne]
        exact fun hc => h hc.symm
      simp [List.lookup, hne]
      exact hl'.1

theorem lookup_addToGroup_ne (m : List (String × List Subscription))
    (k : String) (sub : Subscription) (u : String) (h : u ≠ k) :
    List.lookup u (addToGroup m k sub) = List.lookup u m := by
  induction m with
  | nil =>
    have hne : (u == k) = false := by simpa [beq_eq_false_iff_ne] using h
    simp [addToGroup, List.lookup, hne]
  | cons e rest ih =>
    obtain ⟨k', l⟩ := e
    by_cases hk : k' = k
    · subst hk
      unfold addToGroup
      rw [if_pos rfl]
      have hne : (u == k') = false := by simpa [beq_eq_false_iff_ne] using h
      simp [List.lookup, hne]
    · unfold addToGroup
      rw [if_neg hk]
      by_cases hu : u = k'
      · subst hu
        simp [List.lookup]
      · have hne : (u == k') = false := by simpa [beq_eq_false_iff_ne] using hu
        simp [List.lookup, hne]
        exact ih

theorem foldl_addToGroup_mem (sub : Subscription) :
    ∀ (ts : List String) (acc : List (String × List Subscription)) (u : String),
      (u ∈ ts ∨ ∃ l, List.lookup u acc = some l ∧ sub ∈ l) →
      ∃ l, List.lookup u (ts.foldl (fun a t => addToGroup a t sub) acc) = some l ∧ sub ∈ l := by
  intro ts
  induction ts with
  | nil =>
    intro acc u h
    rcases h with h | h
    · exact absurd h (by simp)
    · simpa using h
  | cons t ts ih =>
    intro acc u h
    rw [List.foldl_cons]
    apply ih
    rcases h with h | ⟨l, hl, hs⟩
    · rcases List.mem_cons.mp h with rfl | h'
      · exact Or.inr (lookup_addToGroup_self acc u sub)
      · exact Or.inl h'
    · by_cases hu : u = t
      · subst hu
        exact Or.inr (lookup_addToGroup_self acc u sub)
      · exact Or.inr ⟨l, by rw [lookup_addToGroup_ne acc t sub u hu]; exact hl, hs⟩

/-- C7: a subscription with no (or an empty) per-subscription override is
routed to every recipient id of the channel's global list — with the empty
global list collapsing to the single empty-string group —, and on the
concrete inputs: global list `"a,b"` yields exactly the groups `a` and `b`,
each containing the subscription, and an empty global list yields the single
group keyed by the empty string. -/
theorem claim_C7_distribute_global_multicast :
    (∀ (sub : Subscription) (g u : String),
      (sub.weNotifyUserIds = none ∨
        ∃ s, sub.weNotifyUserIds = some s ∧ parseRecipients s = []) →
      u ∈ (match parseRecipients g with | [] => [""] | gs => gs) →
      ∃ l, List.lookup u (distributeWeNotifyNotifications [sub] g) = some l ∧ sub ∈ l) ∧
    (∀ sub : Subscription, sub.weNotifyUserIds = none →
      distributeWeNotifyNotifications [sub] "a,b" = [("a", [sub]), ("b", [sub])] ∧
      distributeWeNotifyNotifications [sub] "" = [("", [sub])]) := by
  constructor
  · intro sub g u hov hu
    have hot : overrideTargets sub = [] := by
      unfold overrideTargets
      rcases hov with hov | ⟨s, hov, hps⟩
      · rw [hov]
      · rw [hov]; exact hps
    unfold distributeWeNotifyNotifications
    rw [List.foldl_cons, List.foldl_nil]
    apply foldl_addToGroup_mem
    left
    unfold recipientTargets
    rw [hot]
    simpa using hu
  · intro sub hov
    have hot : overrideTargets sub = [] := by
      unfold overrideTargets; rw [hov]
    constructor
    · have ht : recipientTargets "a,b" sub = ["a", "b"] := by
        unfold recipientTargets
        rw [hot]
        have hab : parseRecipients "a,b" = ["a", "b"] := by decide
        rw [hab]
        simp
      unfold distributeWeNotifyNotifications
      rw [List.foldl_cons, List.foldl_nil, ht]
      rfl
    · have ht : recipientTargets "" sub = [""] := by
        unfold recipientTargets
        rw [hot]
        have hemp : parseRecipients "" = [] := by decide
        rw [hemp]
        simp
      unfold distributeWeNotifyNotifications
      rw [List.foldl_cons, List.foldl_nil, ht]
      rfl

/-- C7 witness: the multicast property at a concrete subscription and the
global list `"a,b"`. -/
theorem claim_C7_witness :
    ∃ l, List.lookup "a" (distributeWeNotifyNotifications
        [⟨"1", "Sub1", ⟨2024, 1, 1⟩, 1, .month, false, true, true, none, none⟩] "a,b")
      = some l ∧
      (⟨"1", "Sub1", ⟨2024, 1, 1⟩, 1, .month, false, true, true, none, none⟩ : Subscription) ∈ l :=
  claim_C7_distribute_global_multicast.1
    ⟨"1", "Sub1", ⟨2024, 1, 1⟩, 1, .month, false, true, true, none, none⟩ "a,b" "a"
    (Or.inl rfl) (by decide)

/-! ## Claim C6 — reminder window -/

/-- C6 counterexample: an active subscription with `reminderDays = 0` and
five days remaining is reported by the scanner (the code's
`sub.reminderDays || 7` turns 0 into the default 7), although the claim's
window `[0, 0]` for `reminderDays = 0` excludes it. -/
theorem claim_C6_counterexample :
    checkExpiringSubscriptions sampleTable 0 ⟨2024, 3, 15⟩
        [⟨"s", "S", ⟨2024, 3, 20⟩, 1, .month, false, true, false, some 0, none⟩]
      = some ([⟨⟨"s", "S", ⟨2024, 3, 20⟩, 1, .month, false, true, false, some 0, none⟩, 5⟩],
          [])
    ∧ ¬ ((5 : Int) ≤ 0) :=
  ⟨by decide, by decide⟩

/-- C6 (amended): for an active subscription with non-negative
`daysRemaining`, the scanner emits a reminder decision exactly when
`daysRemaining ≤ D`, where `D` is the subscription's own `reminderDays`
when that is set and nonzero, and the default 7 when it is unset — or zero
(JS `sub.reminderDays || 7` treats 0 as falsy). -/
theorem claim_C6_reminder_window (T : LunarTable) (fuel : Nat) (today : SolarDate)
    (sub : Subscription) (hact : sub.isActive = true)
    (hd : 0 ≤ daysBetween sub.expiryDate today) :
    checkExpiringSubscriptions T fuel today [sub]
      = some ((if daysBetween sub.expiryDate today ≤ reminderWindow sub
               then [⟨sub, daysBetween sub.expiryDate today⟩] else []), [])
    ∧ (∀ n : Nat, sub.reminderDays = some n → 0 < n → reminderWindow sub = n)
    ∧ (sub.reminderDays = some 0 → reminderWindow sub = 7)
    ∧ (sub.reminderDays = none → reminderWindow sub = 7) := by
  refine ⟨?_, ?_, ?_, ?_⟩
  · unfold checkExpiringSubscriptions processSubscription
    rw [if_neg (by simp [hact])]
    rw [if_neg (fun h => by omega)]
    by_cases hw : daysBetween sub.expiryDate today ≤ reminderWindow sub
    · rw [if_pos ⟨hw, hd⟩, if_pos hw]
      rfl
    · rw [if_neg (fun h => hw h.1), if_neg (by omega), if_neg hw]
      rfl
  · intro n hn hpos
    have hrw : reminderWindow sub = if n = 0 then 7 else (n : Int) := by
      unfold reminderWindow
      rw [hn]
    rw [hrw, if_neg (by omega)]
  · intro hn
    have hrw : reminderWindow sub = if 0 = 0 then 7 else ((0 : Nat) : Int) := by
      unfold reminderWindow
      rw [hn]
    rw [hrw, if_pos rfl]
  · intro hn
    unfold reminderWindow
    rw [hn]

/-- C6 witness: the amended window law at a subscription with
`reminderDays = 3` due in two days (reported). -/
theorem claim_C6_witness :
    checkExpiringSubscriptions sampleTable 0 ⟨2024, 3, 15⟩
        [⟨"s", "S", ⟨2024, 3, 17⟩, 1, .month, false, true, false, some 3, none⟩]
      = some ((if daysBetween (⟨2024, 3, 17⟩ : SolarDate) ⟨2024, 3, 15⟩
               ≤ reminderWindow ⟨"s", "S", ⟨2024, 3, 17⟩, 1, .month, false, true, false,
                   some 3, none⟩
               then [⟨⟨"s", "S", ⟨2024, 3, 17⟩, 1, .month, false, true, false, some 3, none⟩,
                 daysBetween (⟨2024, 3, 17⟩ : SolarDate) ⟨2024, 3, 15⟩⟩] else []), []) :=
  (claim_C6_reminder_window sampleTable 0 ⟨2024, 3, 15⟩
    ⟨"s", "S", ⟨2024, 3, 17⟩, 1, .month, false, true, false, some 3, none⟩
    rfl (by decide)).1

/-! ## Claim C9 — expired, non-renewing subscriptions -/

/-- C9: an active subscription that is overdue (`daysRemaining < 0`) and not
auto-renewing is reported with its negative `daysUntil`, and the scanner
writes nothing back for it — its stored record stays unchanged. -/
theorem claim_C9_expired_unrenewed_reported (T : LunarTable) (fuel : Nat)
    (today : SolarDate) (sub : Subscription) (hact : sub.isActive = true)
    (har : sub.autoRenew = false) (hd : daysBetween sub.expiryDate today < 0) :
    checkExpiringSubscriptions T fuel today [sub]
      = some ([⟨sub, daysBetween sub.expiryDate today⟩], []) := by
  unfold checkExpiringSubscriptions processSubscription
  rw [if_neg (by simp [hact])]
  rw [if_neg (fun h => by rw [har] at h; exact absurd h.2 (by simp))]
  rw [if_neg (fun h => by omega)]
  rw [if_pos hd]
  rfl

/-- C9 witness: a concrete overdue, non-renewing subscription is reported
with `daysUntil = -5` and no write-back. -/
theorem claim_C9_witness :
    checkExpiringSubscriptions sampleTable 0 ⟨2024, 3, 15⟩
        [⟨"s", "S", ⟨2024, 3, 10⟩, 1, .month, false, true, false, some 7, none⟩]
      = some ([⟨⟨"s", "S", ⟨2024, 3, 10⟩, 1, .month, false, true, false, some 7, none⟩,
          daysBetween (⟨2024, 3, 10⟩ : SolarDate) ⟨2024, 3, 15⟩⟩], []) :=
  claim_C9_expired_unrenewed_reported sampleTable 0 ⟨2024, 3, 15⟩
    ⟨"s", "S", ⟨2024, 3, 10⟩, 1, .month, false, true, false, some 7, none⟩
    rfl rfl (by decide)

/-! ## Generic lemmas about labelled segment lists -/

theorem segSum_nil {α : Type} : segSum ([] : List (α × Nat)) = 0 := rfl

theorem segSum_cons {α : Type} (a : α) (len : Nat) (rest : List (α × Nat)) :
    segSum ((a, len) :: rest) = len + segSum rest := by
  simp [segSum]

theorem segSum_append {α : Type} (l1 l2 : List (α × Nat)) :
    segSum (l1 ++ l2) = segSum l1 + segSum l2 := by
  simp [segSum]

/-- A successful walk decomposes the list at the located segment. -/
theorem segWalk_spec {α : Type} :
    ∀ (l : List (α × Nat)) (n : Nat) (a : α) (r : Nat),
      segWalk l n = some (a, r) →
      ∃ l1 len l2, l = l1 ++ (a, len) :: l2 ∧ n = segSum l1 + r ∧ r < len := by
  intro l
  induction l with
  | nil => intro n a r h; exact absurd h (by simp [segWalk])
  | cons e rest ih =>
    obtain ⟨b, len⟩ := e
    intro n a r h
    unfold segWalk at h
    by_cases hlt : n < len
    · rw [if_pos hlt] at h
      obtain ⟨rfl, rfl⟩ := Prod.mk.injEq .. ▸ Option.some.inj h
      exact ⟨[], len, rest, rfl, by simp [segSum], hlt⟩
    · rw [if_neg hlt] at h
      obtain ⟨l1, len', l2, hdec, hsum, hr⟩ := ih (n - len) a r h
      exact ⟨(b, len) :: l1, len', l2, by simp [hdec], by rw [segSum_cons]; omega, hr⟩

/-- The walk skips exactly the segments in front of the located one. -/
theorem segWalk_complete {α : Type} :
    ∀ (l1 : List (α × Nat)) (a : α) (len : Nat) (l2 : List (α × Nat)) (r : Nat),
      r < len → segWalk (l1 ++ (a, len) :: l2) (segSum l1 + r) = some (a, r) := by
  intro l1
  induction l1 with
  | nil =>
    intro a len l2 r hr
    show segWalk ((a, len) :: l2) (segSum ([] : List (α × Nat)) + r) = some (a, r)
    rw [segSum_nil, Nat.zero_add]
    unfold segWalk
    rw [if_pos hr]
  | cons e l1' ih =>
    obtain ⟨b, lb⟩ := e
    intro a len l2 r hr
    rw [segSum_cons]
    show segWalk ((b, lb) :: (l1' ++ (a, len) :: l2)) (lb + segSum l1' + r) = some (a, r)
    unfold segWalk
    rw [if_neg (by omega)]
    rw [show lb + segSum l1' + r - lb = segSum l1' + r from by omega]
    exact ih a len l2 r hr

/-- The walk succeeds whenever the day count lies inside the total length. -/
theorem segWalk_total {α : Type} :
    ∀ (l : List (α × Nat)) (n : Nat), n < segSum l → ∃ p, segWalk l n = some p := by
  intro l
  induction l with
  | nil => intro n h; rw [segSum_nil] at h; omega
  | cons e rest ih =>
    obtain ⟨b, len⟩ := e
    intro n h
    rw [segSum_cons] at h
    unfold segWalk
    by_cases hlt : n < len
    · exact ⟨(b, n), by rw [if_pos hlt]⟩
    · obtain ⟨p, hp⟩ := ih (n - len) (by omega)
      exact ⟨p, by rw [if_neg hlt]; exact hp⟩

/-- When no earlier segment carries the label, `segBefore` sums the prefix. -/
theorem segBefore_append {α : Type} [DecidableEq α] :
    ∀ (l1 : List (α × Nat)) (a : α) (len : Nat) (l2 : List (α × Nat)),
      (∀ q ∈ l1, q.1 ≠ a) →
      segBefore (l1 ++ (a, len) :: l2) a = some (segSum l1) := by
  intro l1
  induction l1 with
  | nil =>
    intro a len l2 _
    show segBefore ((a, len) :: l2) a = some (segSum ([] : List (α × Nat)))
    unfold segBefore
    rw [if_pos rfl, segSum_nil]
  | cons e l1' ih =>
    obtain ⟨b, lb⟩ := e
    intro a len l2 hnot
    have hba : b ≠ a := hnot (b, lb) (by simp)
    show segBefore ((b, lb) :: (l1' ++ (a, len) :: l2)) a = some (segSum ((b, lb) :: l1'))
    unfold segBefore
    rw [if_neg (fun hc => hba hc.symm)]
    rw [ih a len l2 (fun q hq => hnot q (by simp [hq]))]
    rw [segSum_cons]
    rfl

/-- A found `segBefore` value is the prefix sum up to a label-free prefix. -/
theorem segBefore_spec {α : Type} [DecidableEq α] :
    ∀ (l : List (α × Nat)) (a : α) (p : Nat),
      segBefore l a = some p →
      ∃ l1 len l2, l = l1 ++ (a, len) :: l2 ∧ p = segSum l1 ∧ ∀ q ∈ l1, q.1 ≠ a := by
  intro l
  induction l with
  | nil => intro a p h; exact absurd h (by simp [segBefore])
  | cons e rest ih =>
    obtain ⟨b, lb⟩ := e
    intro a p h
    unfold segBefore at h
    by_cases hab : a = b
    · rw [if_pos hab] at h
      obtain rfl := Option.some.inj h
      exact ⟨[], lb, rest, by simp [hab], by rw [segSum_nil], by simp⟩
    · rw [if_neg hab] at h
      obtain ⟨p', hp', rfl⟩ := Option.map_eq_some'.mp h
      obtain ⟨l1, len, l2, hdec, hval, hnot⟩ := ih a p' hp'
      refine ⟨(b, lb) :: l1, len, l2, by simp [hdec], by rw [segSum_cons, hval], ?_⟩
      intro q hq
      rcases List.mem_cons.mp hq with rfl | hq'
      · exact fun hc => hab hc.symm
      · exact hnot q hq'

/-- A found `segBefore` value is at most the total length. -/
theorem segBefore_le {α : Type} [DecidableEq α] (l : List (α × Nat)) (a : α) (p : Nat)
    (h : segBefore l a = some p) : p ≤ segSum l := by
  obtain ⟨l1, len, l2, hdec, rfl, _⟩ := segBefore_spec l a p h
  rw [hdec, segSum_append, segSum_cons]
  omega

/-- With pairwise-distinct labels, `segBefore` locates exactly the segment
found by a walk: the walk's consumed prefix is the label's prefix sum. -/
theorem segBefore_of_walk {α : Type} [DecidableEq α] (L : List (α × Nat))
    (hnd : (L.map Prod.fst).Nodup) (n : Nat) (a : α) (r : Nat)
    (h : segWalk L n = some (a, r)) :
    ∃ p len, segBefore L a = some p ∧ n = p + r ∧ r < len ∧ (a, len) ∈ L := by
  obtain ⟨l1, len, l2, hdec, hsum, hr⟩ := segWalk_spec L n a r h
  have hnot : ∀ q ∈ l1, q.1 ≠ a := by
    intro q hq hc
    rw [hdec, List.map_append, List.map_cons] at hnd
    have hmem : a ∈ l1.map Prod.fst := by
      rw [← hc]
      exact List.mem_map_of_mem _ hq
    have := (List.nodup_append.mp hnd).2.2
    exact this hmem (by simp)
  refine ⟨segSum l1, len, ?_, hsum, hr, by rw [hdec]; simp⟩
  rw [hdec]
  exact segBefore_append l1 a len l2 hnot

/-! ## First-occurrence indices -/

theorem idxOfAux_get {α : Type} [DecidableEq α] (a : α) :
    ∀ L : List α, a ∈ L → L.get? (idxOfAux a L) = some a := by
  intro L
  induction L with
  | nil => intro h; exact absurd h (by simp)
  | cons b rest ih =>
    intro h
    unfold idxOfAux
    by_cases hab : a = b
    · rw [if_pos hab, hab]
      rfl
    · rw [if_neg hab]
      have : a ∈ rest := by
        rcases List.mem_cons.mp h with rfl | h'
        · exact absurd rfl hab
        · exact h'
      simpa using ih this

theorem idxOfAux_of_get {α : Type} [DecidableEq α] :
    ∀ (L : List α), L.Nodup → ∀ (i : Nat) (a : α), L.get? i = some a →
      idxOfAux a L = i := by
  intro L
  induction L with
  | nil => intro _ i a h; exact absurd h (by simp)
  | cons b rest ih =>
    intro hnd i a h
    obtain ⟨hb, hnd'⟩ := List.nodup_cons.mp hnd
    unfold idxOfAux
    match i with
    | 0 =>
      obtain rfl : b = a := Option.some.inj h
      rw [if_pos rfl]
    | i + 1 =>
      have h' : rest.get? i = some a := by simpa using h
      have hab : a ≠ b := by
        intro hc
        subst hc
        exact hb (List.get?_mem h')
      rw [if_neg hab, ih hnd' i a h']

/-- `segBefore` over a label-distinct list is the prefix sum up to the
label's first-occurrence index. -/
theorem segBefore_idx {α : Type} [DecidableEq α] :
    ∀ (L : List (α × Nat)) (a : α) (p : Nat),
      segBefore L a = some p →
      p = segSum (L.take (idxOfAux a (L.map Prod.fst))) := by
  intro L
  induction L with
  | nil => intro a p h; exact absurd h (by simp [segBefore])
  | cons e rest ih =>
    obtain ⟨b, lb⟩ := e
    intro a p h
    unfold segBefore at h
    by_cases hab : a = b
    · rw [if_pos hab] at h
      obtain rfl := Option.some.inj h
      rw [List.map_cons]
      unfold idxOfAux
      rw [if_pos hab]
      rfl
    · rw [if_neg hab] at h
      obtain ⟨p', hp', rfl⟩ := Option.map_eq_some'.mp h
      rw [List.map_cons]
      unfold idxOfAux
      rw [if_neg hab, List.take_succ_cons, segSum_cons, ih a p' hp']

/-! ## Structure of the lunar month and year segment lists -/

theorem monthSegs_map_fst (T : LunarTable) (y : Nat) :
    (monthSegs T y).map Prod.fst = lunarMonths T y := by
  unfold monthSegs
  rw [List.map_map]
  simp [Function.comp_def]

theorem monthSegs_mem (T : LunarTable) (y : Nat) {q : Nat × Bool} {len : Nat}
    (h : (q, len) ∈ monthSegs T y) :
    len = lunarMonthLen T y q ∧ q ∈ lunarMonths T y := by
  unfold monthSegs at h
  rw [List.mem_map] at h
  obtain ⟨p, hp, hpair⟩ := h
  obtain ⟨rfl, rfl⟩ := Prod.mk.injEq .. ▸ hpair.symm
  exact ⟨rfl, hp⟩

theorem mem_lunarMonths_block {T : LunarTable} {y i : Nat} {q : Nat × Bool}
    (hq : q ∈ (if T.leapMonth y = i + 1 then [(i + 1, false), (i + 1, true)]
      else [(i + 1, false)])) : q.1 = i + 1 := by
  split at hq
  · rcases List.mem_cons.mp hq with rfl | hq'
    · rfl
    · rcases List.mem_cons.mp hq' with rfl | hq''
      · rfl
      · exact absurd hq'' (by simp)
  · rcases List.mem_cons.mp hq with rfl | hq'
    · rfl
    · exact absurd hq' (by simp)

theorem lunarMonths_nodup (T : LunarTable) (y : Nat) : (lunarMonths T y).Nodup := by
  unfold lunarMonths
  rw [List.nodup_flatMap]
  constructor
  · intro i _
    split
    · simp
    · simp
  · have hpw : (List.range 12).Pairwise (· < ·) := List.pairwise_lt_range ..
    refine hpw.imp ?_
    intro i j hij
    intro q hqi hqj
    have h1 := mem_lunarMonths_block hqi
    have h2 := mem_lunarMonths_block hqj
    omega

theorem lunarMonths_length_pos (T : LunarTable) (y : Nat) :
    0 < (lunarMonths T y).length := by
  have hmem : ((1 : Nat), false) ∈ lunarMonths T y := by
    unfold lunarMonths
    rw [List.mem_flatMap]
    refine ⟨0, by simp, ?_⟩
    split
    · simp
    · simp
  exact List.length_pos.mpr (fun hnil => by rw [hnil] at hmem; exact absurd hmem (by simp))

theorem segSum_range_map (T : LunarTable) :
    ∀ k, segSum ((List.range k).map (fun i => (1900 + i, lunarYearDays T (1900 + i))))
      = yearsAux T k := by
  intro k
  induction k with
  | zero => rfl
  | succ k ih =>
    rw [List.range_succ, List.map_append, segSum_append, ih]
    show yearsAux T k + (lunarYearDays T (1900 + k) + 0) = yearsAux T (k + 1)
    show yearsAux T k + (lunarYearDays T (1900 + k) + 0) = yearsAux T k + lunarYearDays T (1900 + k)
    omega

theorem coverage_labels (T : LunarTable) :
    (coverageSegs T).map Prod.fst = (List.range 201).map (fun i => 1900 + i) := by
  unfold coverageSegs
  rw [List.map_map]
  rfl

theorem coverage_labels_nodup (T : LunarTable) :
    ((coverageSegs T).map Prod.fst).Nodup := by
  rw [coverage_labels]
  exact (List.nodup_range ..).map (fun a b hab => by omega)

theorem coverage_mem (T : LunarTable) {y len : Nat} (h : (y, len) ∈ coverageSegs T) :
    len = lunarYearDays T y ∧ 1900 ≤ y ∧ y ≤ 2100 := by
  unfold coverageSegs at h
  rw [List.mem_map] at h
  obtain ⟨i, hi, hpair⟩ := h
  rw [List.mem_range] at hi
  obtain ⟨h1, h2⟩ := Prod.mk.injEq .. ▸ hpair
  subst h1; subst h2
  exact ⟨rfl, by omega, by omega⟩

/-- A found `segBefore` on the coverage list is the raw years prefix. -/
theorem coverage_before (T : LunarTable) (y p : Nat)
    (h : segBefore (coverageSegs T) y = some p) :
    p = yearsPrefixRaw T y ∧ 1900 ≤ y ∧ y ≤ 2100 := by
  obtain ⟨l1, len, l2, hdec, _, _⟩ := segBefore_spec _ y p h
  have hmem : (y, len) ∈ coverageSegs T := by rw [hdec]; simp
  obtain ⟨k, hk, hyk⟩ : ∃ k, k < 201 ∧ y = 1900 + k := by
    unfold coverageSegs at hmem
    rw [List.mem_map] at hmem
    obtain ⟨i, hi, hpair⟩ := hmem
    rw [List.mem_range] at hi
    obtain ⟨h1, _⟩ := Prod.mk.injEq .. ▸ hpair
    exact ⟨i, hi, h1.symm⟩
  have hidx := segBefore_idx _ y p h
  have hget : (((List.range 201).map (fun i => 1900 + i))).get? k = some y := by
    rw [List.get?_map, List.get?_range hk, Option.map_some']
    rw [hyk]
  have hnd : (((List.range 201).map (fun i => 1900 + i))).Nodup :=
    (List.nodup_range ..).map (fun a b hab => by omega)
  have hidxval : idxOfAux y ((coverageSegs T).map Prod.fst) = k := by
    rw [coverage_labels]
    exact idxOfAux_of_get _ hnd k y hget
  rw [hidxval] at hidx
  have htake : (coverageSegs T).take k
      = (List.range k).map (fun i => (1900 + i, lunarYearDays T (1900 + i))) := by
    unfold coverageSegs
    rw [← List.map_take, List.take_range, Nat.min_eq_left (by omega)]
  rw [htake, segSum_range_map] at hidx
  refine ⟨?_, by omega, by omega⟩
  rw [hidx, hyk]
  unfold yearsPrefixRaw
  rw [show 1900 + k - 1900 = k from by omega]

theorem yearsPrefixRaw_succ (T : LunarTable) (y : Nat) (hy : 1900 ≤ y) :
    yearsPrefixRaw T (y + 1) = yearsPrefixRaw T y + lunarYearDays T y := by
  unfold yearsPrefixRaw
  rw [show y + 1 - 1900 = (y - 1900) + 1 from by omega]
  show yearsAux T (y - 1900) + lunarYearDays T (1900 + (y - 1900))
    = yearsAux T (y - 1900) + lunarYearDays T y
  rw [show 1900 + (y - 1900) = y from by omega]

theorem yearsAux_mono (T : LunarTable) : Monotone (yearsAux T) := by
  apply monotone_nat_of_le_succ
  intro k
  show yearsAux T k ≤ yearsAux T k + lunarYearDays T (1900 + k)
  omega

theorem segSum_take_le {α : Type} (L : List (α × Nat)) (n : Nat) :
    segSum (L.take n) ≤ segSum L := by
  conv_rhs => rw [← List.take_append_drop n L]
  rw [segSum_append]
  omega

theorem segSum_take_succ {α : Type} (L : List (α × Nat)) (i : Nat) (q : α × Nat)
    (h : L.get? i = some q) :
    segSum (L.take (i + 1)) = segSum (L.take i) + q.2 := by
  rw [List.take_succ]
  rw [List.get?_eq_getElem?] at h
  rw [h, segSum_append]
  simp [segSum]

theorem monthSegs_get (T : LunarTable) (y i : Nat) (q : Nat × Bool)
    (h : (lunarMonths T y).get? i = some q) :
    (monthSegs T y).get? i = some (q, lunarMonthLen T y q) := by
  unfold monthSegs
  rw [List.get?_map, h]
  rfl

theorem posLen_eq (T : LunarTable) (p : Nat × Nat) (q : Nat × Bool)
    (h : (lunarMonths T p.1).get? p.2 = some q) :
    posLen T p = lunarMonthLen T p.1 q := by
  rw [List.get?_eq_getElem?] at h
  simp [posLen, h]

theorem posDate_eq (T : LunarTable) (p : Nat × Nat) (q : Nat × Bool) (d : Nat)
    (h : (lunarMonths T p.1).get? p.2 = some q) :
    posDate T p d = ⟨p.1, q.1, d, q.2⟩ := by
  rw [List.get?_eq_getElem?] at h
  simp [posDate, h]

theorem posValid_get (T : LunarTable) (p : Nat × Nat) (hv : PosValid T p) :
    ∃ q, (lunarMonths T p.1).get? p.2 = some q := by
  rw [List.get?_eq_getElem?]
  exact ⟨_, List.getElem?_eq_getElem hv.2⟩

/-- Advancing one month adds exactly the current month's length to the
position offset. -/
theorem posOffset_next (T : LunarTable) (p : Nat × Nat) (hv : PosValid T p) :
    posOffset T (nextMonthPos T p) = posOffset T p + posLen T p := by
  obtain ⟨hy, hlt⟩ := hv
  obtain ⟨q, hq⟩ := posValid_get T p ⟨hy, hlt⟩
  have hseg := monthSegs_get T p.1 p.2 q hq
  have hlen := posLen_eq T p q hq
  unfold nextMonthPos
  by_cases hnext : p.2 + 1 < (lunarMonths T p.1).length
  · rw [if_pos hnext]
    show yearsPrefixRaw T p.1 + segSum ((monthSegs T p.1).take (p.2 + 1))
      = posOffset T p + posLen T p
    rw [segSum_take_succ _ _ _ hseg, hlen]
    unfold posOffset
    omega
  · rw [if_neg hnext]
    show yearsPrefixRaw T (p.1 + 1) + segSum ((monthSegs T (p.1 + 1)).take 0)
      = posOffset T p + posLen T p
    rw [yearsPrefixRaw_succ T p.1 hy]
    have hlenseg : (monthSegs T p.1).length = (lunarMonths T p.1).length := by
      unfold monthSegs
      rw [List.length_map]
    have h1 : segSum ((monthSegs T p.1).take (p.2 + 1)) = segSum (monthSegs T p.1) := by
      rw [show p.2 + 1 = (monthSegs T p.1).length from by omega, List.take_length]
    have h2 := segSum_take_succ _ _ _ hseg
    have h3 : lunarYearDays T p.1 = segSum (monthSegs T p.1) := rfl
    unfold posOffset
    rw [List.take_zero, segSum_nil, hlen] at *
    omega

theorem posValid_next (T : LunarTable) (p : Nat × Nat) (hv : PosValid T p) :
    PosValid T (nextMonthPos T p) := by
  unfold nextMonthPos
  by_cases hnext : p.2 + 1 < (lunarMonths T p.1).length
  · rw [if_pos hnext]
    exact ⟨hv.1, hnext⟩
  · rw [if_neg hnext]
    exact ⟨by have := hv.1; omega, lunarMonths_length_pos T (p.1 + 1)⟩

theorem posOffset_iterate (T : LunarTable) (v : Nat) (p : Nat × Nat)
    (hv : PosValid T p) :
    PosValid T ((nextMonthPos T)^[v] p) ∧
      posOffset T p ≤ posOffset T ((nextMonthPos T)^[v] p) := by
  induction v generalizing p with
  | zero => exact ⟨hv, le_refl _⟩
  | succ v ih =>
    rw [Function.iterate_succ_apply]
    obtain ⟨hv', hle'⟩ := ih (nextMonthPos T p) (posValid_next T p hv)
    refine ⟨hv', le_trans ?_ hle'⟩
    rw [posOffset_next T p hv]
    omega

/-- A convertible lunar date determines a valid month position, and its
offset is the position offset plus the day index. -/
theorem lunarOffset_some (T : LunarTable) (l : LunarDate) (o : Nat)
    (h : lunarOffset T l = some o) :
    PosValid T (l.year, lunarMonthIdx T l.year l.month l.isLeap) ∧
    o = posOffset T (l.year, lunarMonthIdx T l.year l.month l.isLeap) + (l.day - 1) ∧
    1 ≤ l.day ∧ l.day ≤ lunarMonthLen T l.year (l.month, l.isLeap) ∧
    (lunarMonths T l.year).get? (lunarMonthIdx T l.year l.month l.isLeap)
      = some (l.month, l.isLeap) ∧
    1900 ≤ l.year ∧ l.year ≤ 2100 := by
  unfold lunarOffset at h
  split at h
  · next yp mp hyp hmp =>
    split at h
    · next hday =>
      obtain rfl := Option.some.inj h
      obtain ⟨hypv, hy1, hy2⟩ := coverage_before T l.year yp hyp
      have hidx := segBefore_idx _ _ _ hmp
      rw [monthSegs_map_fst] at hidx
      obtain ⟨l1, len, l2, hdec, _, _⟩ := segBefore_spec _ _ _ hmp
      have hmem : ((l.month, l.isLeap), len) ∈ monthSegs T l.year := by
        rw [hdec]; simp
      obtain ⟨hlen, hmm⟩ := monthSegs_mem _ _ hmem
      have hget : (lunarMonths T l.year).get? (lunarMonthIdx T l.year l.month l.isLeap)
          = some (l.month, l.isLeap) := idxOfAux_get _ _ hmm
      have hltlen : lunarMonthIdx T l.year l.month l.isLeap
          < (lunarMonths T l.year).length := by
        rw [List.get?_eq_getElem?] at hget
        exact (List.getElem?_eq_some_iff.mp hget).1
      refine ⟨⟨hy1, hltlen⟩, ?_, hday.1, hday.2, hget, hy1, hy2⟩
      unfold posOffset lunarMonthIdx
      dsimp only
      rw [hypv] at *
      omega
    · exact absurd h (by simp)
  · exact absurd h (by simp)

/-- The offset of the date at a valid position with day `d`. -/
theorem lunarOffset_posDate (T : LunarTable) (p : Nat × Nat) (d o : Nat)
    (hv : PosValid T p) (h : lunarOffset T (posDate T p d) = some o) :
    o = posOffset T p + (d - 1) ∧ 1 ≤ d := by
  obtain ⟨q, hq⟩ := posValid_get T p hv
  obtain ⟨qm, ql⟩ := q
  rw [posDate_eq T p (qm, ql) d hq] at h
  obtain ⟨_, ho, hd1, _, _, _, _⟩ := lunarOffset_some T _ o h
  dsimp only at ho hd1
  have hidx : lunarMonthIdx T p.1 qm ql = p.2 := by
    unfold lunarMonthIdx
    exact idxOfAux_of_get _ (lunarMonths_nodup T p.1) p.2 (qm, ql) hq
  rw [hidx] at ho
  exact ⟨ho, hd1⟩

/-- The day walk conserves `position offset + remaining days`. -/
theorem lunarDayWalkAux_offset (T : LunarTable) :
    ∀ (fuel : Nat) (p : Nat × Nat) (d o : Nat), PosValid T p →
      lunarOffset T (lunarDayWalkAux T fuel p d) = some o →
      o + 1 = posOffset T p + d := by
  intro fuel
  induction fuel with
  | zero =>
    intro p d o hv h
    unfold lunarDayWalkAux at h
    obtain ⟨ho, hd⟩ := lunarOffset_posDate T p d o hv h
    omega
  | succ f ih =>
    intro p d o hv h
    unfold lunarDayWalkAux at h
    by_cases hle : d ≤ posLen T p
    · rw [if_pos hle] at h
      obtain ⟨ho, hd⟩ := lunarOffset_posDate T p d o hv h
      omega
    · rw [if_neg hle] at h
      have hnext := posValid_next T p hv
      have hrec := ih (nextMonthPos T p) (d - posLen T p) o hnext h
      have hstep := posOffset_next T p hv
      have hpos := posLen_pos T p
      omega

/-- Adding a positive lunar period never decreases the epoch offset
(whenever both the original and the advanced date are convertible). -/
theorem addLunarPeriod_mono (T : LunarTable) (l : LunarDate) (v : Nat) (hv : 1 ≤ v)
    (u : PeriodUnit) (o1 o2 : Nat) (h1 : lunarOffset T l = some o1)
    (h2 : lunarOffset T (addLunarPeriod T l v u) = some o2) : o1 ≤ o2 := by
  obtain ⟨hpv, ho1, hd1, hdlen, hget, hy1, hy2⟩ := lunarOffset_some T l o1 h1
  cases u with
  | year =>
    unfold addLunarPeriod at h2
    obtain ⟨_, ho2, _, _, _, _, _⟩ := lunarOffset_some T _ o2 h2
    dsimp only at ho2
    have hseg := monthSegs_get T l.year _ _ hget
    have htake := segSum_take_succ _ _ _ hseg
    have hle1 : segSum ((monthSegs T l.year).take
        (lunarMonthIdx T l.year l.month l.isLeap + 1)) ≤ segSum (monthSegs T l.year) :=
      segSum_take_le _ _
    have hyd : lunarYearDays T l.year = segSum (monthSegs T l.year) := rfl
    have hstep := yearsPrefixRaw_succ T l.year hy1
    have hmono : yearsPrefixRaw T (l.year + 1) ≤ yearsPrefixRaw T (l.year + v) := by
      unfold yearsPrefixRaw
      exact yearsAux_mono T (by omega)
    unfold posOffset at ho1 ho2
    dsimp only at ho1 ho2
    omega
  | month =>
    unfold addLunarPeriod at h2
    obtain ⟨hvalid, hle⟩ :=
      posOffset_iterate T v (l.year, lunarMonthIdx T l.year l.month l.isLeap) hpv
    obtain ⟨ho2, _⟩ := lunarOffset_posDate T _ l.day o2 hvalid h2
    omega
  | day =>
    unfold addLunarPeriod lunarDayWalk at h2
    have := lunarDayWalkAux_offset T (l.day + v) _ (l.day + v) o2 hpv h2
    omega

/-! ## Round trip of the lunar conversion -/

/-- A successful solar→lunar conversion converts back to the original
solar date. -/
theorem solar2lunar_back (T : LunarTable) {y m d : Nat} {l : LunarDate}
    (h : solar2lunar T y m d = some l) :
    lunar2solar T l = some ⟨y, m, d⟩ := by
  unfold solar2lunar at h
  by_cases hval : ¬ (1900 ≤ y ∧ y ≤ 2100 ∧ ValidDate ⟨y, m, d⟩)
  · rw [if_pos hval] at h
    exact absurd h (by simp)
  · rw [if_neg hval] at h
    have hvd : ValidDate ⟨y, m, d⟩ := (not_not.mp hval).2.2
    by_cases hep : toDays ⟨y, m, d⟩ < lunarEpochDays
    · rw [if_pos hep] at h
      exact absurd h (by simp)
    · rw [if_neg hep] at h
      cases hw1 : segWalk (coverageSegs T) (toDays ⟨y, m, d⟩ - lunarEpochDays) with
      | none => rw [hw1] at h; exact absurd h (by simp)
      | some p1 =>
        obtain ⟨ly, r⟩ := p1
        rw [hw1] at h
        dsimp only at h
        cases hw2 : segWalk (monthSegs T ly) r with
        | none => rw [hw2] at h; exact absurd h (by simp)
        | some p2 =>
          obtain ⟨lm, r2⟩ := p2
          obtain ⟨lmm, lml⟩ := lm
          rw [hw2] at h
          dsimp only at h
          obtain rfl := Option.some.inj h
          obtain ⟨py, ylen, hby, hsum1, hr1, hymem⟩ :=
            segBefore_of_walk _ (coverage_labels_nodup T) _ _ _ hw1
          obtain ⟨pm, mlen, hbm, hsum2, hr2, hmmem⟩ :=
            segBefore_of_walk _
              (by rw [monthSegs_map_fst]; exact lunarMonths_nodup T ly) _ _ _ hw2
          obtain ⟨hmlen, _⟩ := monthSegs_mem _ _ hmmem
          unfold lunar2solar lunarOffset
          dsimp only
          rw [hby, hbm]
          dsimp only
          rw [if_pos ⟨by omega, by rw [← hmlen]; omega⟩]
          have harith : lunarEpochDays + (py + pm + (r2 + 1 - 1)) = toDays ⟨y, m, d⟩ := by
            omega
          rw [Option.map_some', harith, toDays_fromDays hvd]

/-- Inside the covered range the solar→lunar conversion succeeds. -/
theorem solar2lunar_total (T : LunarTable) (s : SolarDate) (hval : ValidDate s)
    (hy1 : 1900 ≤ s.year) (hy2 : s.year ≤ 2100) (hep : lunarEpochDays ≤ toDays s)
    (hcov : toDays s - lunarEpochDays < segSum (coverageSegs T)) :
    ∃ l, solar2lunar T s.year s.month s.day = some l := by
  have hs : (⟨s.year, s.month, s.day⟩ : SolarDate) = s := rfl
  unfold solar2lunar
  rw [hs]
  rw [if_neg (by push_neg; exact ⟨hy1, hy2, hval⟩), if_neg (by omega)]
  obtain ⟨p1, hw1⟩ := segWalk_total _ _ hcov
  obtain ⟨ly, r⟩ := p1
  obtain ⟨l1, len, l2, hdec, hsum, hr⟩ := segWalk_spec _ _ _ _ hw1
  have hymem : (ly, len) ∈ coverageSegs T := by rw [hdec]; simp
  obtain ⟨hlen, _, _⟩ := coverage_mem T hymem
  have hr' : r < segSum (monthSegs T ly) := by
    have : lunarYearDays T ly = segSum (monthSegs T ly) := rfl
    omega
  obtain ⟨p2, hw2⟩ := segWalk_total _ _ hr'
  obtain ⟨lm, r2⟩ := p2
  obtain ⟨lmm, lml⟩ := lm
  refine ⟨⟨ly, lmm, r2 + 1, lml⟩, ?_⟩
  rw [hw1]
  dsimp only
  rw [hw2]

/-- A successful lunar→solar conversion produces a valid date at
`epoch + offset`. -/
theorem lunar2solar_toDays (T : LunarTable) (l : LunarDate) (s : SolarDate)
    (h : lunar2solar T l = some s) :
    ∃ o, lunarOffset T l = some o ∧ toDays s = lunarEpochDays + o ∧ ValidDate s := by
  unfold lunar2solar at h
  obtain ⟨o, ho, rfl⟩ := Option.map_eq_some'.mp h
  have hsp := fromDays_spec (lunarEpochDays + o)
  exact ⟨o, ho, hsp.2, hsp.1⟩

/-! ## The loops never move the date backwards -/

theorem solarLoop_ge (target : SolarDate) (pv : Int) (pu : PeriodUnit) (hpv : 1 ≤ pv) :
    ∀ fuel cur r, ValidDate cur → solarLoop target pv pu fuel cur = some r →
      toDays cur ≤ toDays r := by
  intro fuel
  induction fuel with
  | zero =>
    intro cur r hval h
    unfold solarLoop at h
    by_cases hlt : toDays cur < toDays target
    · rw [if_pos hlt] at h
      exact absurd h (by simp)
    · rw [if_neg hlt] at h
      obtain rfl := Option.some.inj h
      exact le_refl _
  | succ f ih =>
    intro cur r hval h
    unfold solarLoop at h
    by_cases hlt : toDays cur < toDays target
    · rw [if_pos hlt] at h
      obtain ⟨hval', hge⟩ := solarStep_spec hval pv hpv pu
      exact le_trans (by omega) (ih (solarStep pv pu cur) r hval' h)
    · rw [if_neg hlt] at h
      obtain rfl := Option.some.inj h
      exact le_refl _

theorem lunarLoop_ge (T : LunarTable) (target : SolarDate) (pv : Int)
    (pu : PeriodUnit) (hpv : 1 ≤ pv) :
    ∀ fuel cur ld r, lunar2solar T ld = some cur →
      lunarLoop T target pv pu fuel cur ld = some r → toDays cur ≤ toDays r := by
  intro fuel
  induction fuel with
  | zero =>
    intro cur ld r hconv h
    unfold lunarLoop at h
    by_cases hlt : toDays cur < toDays target
    · rw [if_pos hlt] at h
      exact absurd h (by simp)
    · rw [if_neg hlt] at h
      obtain rfl := Option.some.inj h
      exact le_refl _
  | succ f ih =>
    intro cur ld r hconv h
    unfold lunarLoop at h
    by_cases hlt : toDays cur < toDays target
    · rw [if_pos hlt] at h
      cases hs : lunar2solar T (addLunarPeriod T ld pv.toNat pu) with
      | none =>
        rw [hs] at h
        obtain rfl := Option.some.inj h
        exact le_refl _
      | some s =>
        rw [hs] at h
        obtain ⟨o1, ho1, hto1, _⟩ := lunar2solar_toDays T ld cur hconv
        obtain ⟨o2, ho2, hto2, _⟩ := lunar2solar_toDays T _ s hs
        have hmono := addLunarPeriod_mono T ld pv.toNat (by omega) pu o1 o2 ho1 ho2
        exact le_trans (by omega) (ih s _ r hs h)
    · rw [if_neg hlt] at h
      obtain rfl := Option.some.inj h
      exact le_refl _

/-! ## Claim C10 — the due date never moves backwards -/

/-- C10: whenever `calculateNextExpiryDate` returns (in either mode, for a
positive period value), the returned date is not before the original expiry
— including the failure paths, where the original date or the last
successfully converted date is returned. -/
theorem claim_C10_never_backwards (T : LunarTable) (fuel : Nat)
    (cur target r : SolarDate) (pv : Int) (pu : PeriodUnit) (useLunar : Bool)
    (hval : ValidDate cur) (hpv : 1 ≤ pv)
    (h : calculateNextExpiryDate T fuel cur pv pu useLunar target = some r) :
    toDays cur ≤ toDays r := by
  unfold calculateNextExpiryDate at h
  by_cases hge : toDays target ≤ toDays cur
  · rw [if_pos hge] at h
    obtain rfl := Option.some.inj h
    exact le_refl _
  · rw [if_neg hge] at h
    cases useLunar with
    | false =>
      rw [if_neg (by simp)] at h
      exact solarLoop_ge target pv pu hpv fuel cur r hval h
    | true =>
      rw [if_pos rfl] at h
      cases hsl : solar2lunar T cur.year cur.month cur.day with
      | none =>
        rw [hsl] at h
        obtain rfl := Option.some.inj h
        exact le_refl _
      | some ld =>
        rw [hsl] at h
        have hback : lunar2solar T ld = some cur := solar2lunar_back T hsl
        exact lunarLoop_ge T target pv pu hpv fuel cur ld r hback h

/-- Witness for C10 in lunar mode: from 2024‑01‑01 with a 1‑month lunar
period and target 2024‑03‑15 the function returns 2024‑03‑31, which is not
before the original expiry date. -/
theorem claim_C10_witness :
    ValidDate ⟨2024, 1, 1⟩ ∧ (1 : Int) ≤ 1 ∧
      toDays ⟨2024, 1, 1⟩ ≤ toDays ⟨2024, 3, 31⟩ :=
  ⟨by decide, by decide,
    claim_C10_never_backwards sampleTable 10 ⟨2024, 1, 1⟩ ⟨2024, 3, 15⟩
      ⟨2024, 3, 31⟩ 1 .month true (by decide) (by decide) (by decide)⟩

/-! ## Claim C1 — lunar round trip -/

/-- C1 counterexample: 1900‑01‑01 has its year inside [1900, 2100] and a
valid month and day, yet `solar2lunar` returns `none` (the date precedes the
table epoch 1900‑01‑31), so the round trip claimed for every in‑range solar
date does not even start. -/
theorem claim_C1_counterexample :
    1900 ≤ 1900 ∧ 1900 ≤ 2100 ∧ ValidDate ⟨1900, 1, 1⟩ ∧
      solar2lunar sampleTable 1900 1 1 = none := by
  refine ⟨by decide, by decide, by decide, ?_⟩
  decide

/-- C1 (amended): for every table, every valid solar date with year in
[1900, 2100] that is **not before the epoch 1900‑01‑31 and within the days
covered by the table** converts to a lunar date that converts back to the
original solar date; and every solar date with year outside [1900, 2100] is
not convertible (`none`). -/
theorem claim_C1_round_trip (T : LunarTable) (s : SolarDate)
    (hval : ValidDate s) (hy1 : 1900 ≤ s.year) (hy2 : s.year ≤ 2100)
    (hep : lunarEpochDays ≤ toDays s)
    (hcov : toDays s - lunarEpochDays < segSum (coverageSegs T)) :
    (∃ l, solar2lunar T s.year s.month s.day = some l ∧
      lunar2solar T l = some s) ∧
    ∀ y m d : Nat, y < 1900 ∨ 2100 < y → solar2lunar T y m d = none := by
  constructor
  · obtain ⟨l, hl⟩ := solar2lunar_total T s hval hy1 hy2 hep hcov
    exact ⟨l, hl, solar2lunar_back T hl⟩
  · intro y m d hy
    unfold solar2lunar
    rw [if_pos (by rintro ⟨h1, h2, _⟩; omega)]

/-- Witness for C1 at the epoch date 1900‑01‑31 with the sample table. -/
theorem claim_C1_witness :
    (∃ l, solar2lunar sampleTable 1900 1 31 = some l ∧
      lunar2solar sampleTable l = some ⟨1900, 1, 31⟩) ∧
    ∀ y m d : Nat, y < 1900 ∨ 2100 < y → solar2lunar sampleTable y m d = none :=
  claim_C1_round_trip sampleTable ⟨1900, 1, 31⟩ (by decide) (by decide)
    (by decide) (by decide) (by decide)

end SubMgr

